import Mathlib

/-!
Verification of the promise-pool-executor scheduler.

The development contains three models, each translated from the repository
sources:

* `PromisePool` — a small-step machine for the current-generation scheduler:
  tasks (`src/ts/private/task.ts`, class `PromisePoolTaskPrivate`) attached to
  groups, with per-group concurrency and frequency bookkeeping.  The group
  internals (`group.ts`) and the pool scheduling loop (`pool.ts`) are not part
  of the source tree; the few facts needed from them (the `_busyTime`
  computation of a group and the readiness gate of the scheduler loop) are
  modelled from the specification, as marked in their doc comments.  All
  increments, decrements, state transitions and guards are translated from
  `task.ts`.
* `TaskObs` — the observable single-task protocol of `task.ts`: the
  constructor, `promise()`, `_run`'s completion handler result storage,
  `_resolve` and `_reject`.
* `OldPool` — the legacy self-contained scheduler of `src/ts/index.ts`
  (`startPromise` / `triggerPromises` / `nextPromise` / `addGenericTask` /
  `addBatchTask`), including a fuelled interpreter precise enough to replay
  synchronous generator re-entrancy.
-/

namespace PromisePool

/-- A limit that is either a finite number or `Infinity` (the JavaScript
default for an absent concurrency or invocation limit). -/
inductive Lim where
  | fin (n : Nat)
  | inf
  deriving DecidableEq, Repr

/-- JavaScript comparison `a < limit` for an (integer) active count against a
possibly infinite limit. -/
def Lim.intLtB (a : Int) : Lim → Bool
  | .fin n => a < (n : Int)
  | .inf => true

/-- JavaScript comparison `a <= limit`. -/
def Lim.intLeB (a : Int) : Lim → Bool
  | .fin n => a ≤ (n : Int)
  | .inf => true

/-- JavaScript comparison `invocations >= invocationLimit` (always false
against `Infinity`). -/
def Lim.natGeB (a : Nat) : Lim → Bool
  | .fin n => n ≤ a
  | .inf => false

/-- JavaScript comparison `invocations <= invocationLimit`. -/
def Lim.natLeB (a : Nat) : Lim → Bool
  | .fin n => a ≤ n
  | .inf => true

/-- JavaScript test `invocationLimit <= 0` on a nonnegative limit. -/
def Lim.leZeroB : Lim → Bool
  | .fin 0 => true
  | _ => false

/-- A valid concurrency limit: a positive number or `Infinity` (spec §6:
invalid values are refused). -/
def Lim.validB : Lim → Bool
  | .fin n => decide (0 < n)
  | .inf => true

/-- Task states of `public/task.ts` (`TaskState`), ordered
`Active < Paused < Exhausted < Terminated`; comparisons in the source use
this order. -/
inductive TState where
  | active
  | paused
  | exhausted
  | terminated
  deriving DecidableEq, Repr

/-- The numeric rank underlying the `TaskState` enum order. -/
def TState.rank : TState → Nat
  | .active => 0
  | .paused => 1
  | .exhausted => 2
  | .terminated => 3

/-- A group (`PromisePoolGroupPrivate`): concurrency limit, optional frequency
limit with its window, the live promise counter and the recorded
invocation-start timestamps.  Waiter and task-count bookkeeping of groups is
outside the claims modelled here. -/
structure Grp where
  climit : Lim
  frequencyLimit : Option Nat
  frequencyWindow : Nat
  active : Int
  frequencyStarts : List Nat
  deriving DecidableEq, Repr

/-- Parameters accepted when creating a group (pool options, `addGroup`
options, or the per-task group options of `addGenericTask`). -/
structure GrpParams where
  climit : Lim
  frequencyLimit : Option Nat
  frequencyWindow : Nat
  deriving DecidableEq, Repr

/-- Modelled from the spec: `group.ts` is absent from the source tree; §6
requires limits to be positive numbers (or absent), with invalid values
failing construction. -/
def validGrpParams (p : GrpParams) : Bool :=
  (match p.climit with
    | .fin n => decide (0 < n)
    | .inf => true) &&
  (match p.frequencyLimit with
    | some n => decide (0 < n)
    | none => true)

/-- A freshly constructed group: counters at zero, no timestamps. -/
def mkGrp (p : GrpParams) : Grp :=
  { climit := p.climit
  , frequencyLimit := p.frequencyLimit
  , frequencyWindow := p.frequencyWindow
  , active := 0
  , frequencyStarts := [] }

/-- The group a never-created index maps to; pool construction places the
global group at index 0 and groups are only ever created at fresh indices. -/
def dfltGrp : Grp := mkGrp { climit := .inf, frequencyLimit := none, frequencyWindow := 0 }

/-- The value of `group._busyTime()` as consumed by `task.ts` line 213: the
JavaScript function returns `false` (ready), `true` (busy with no known end)
or a number (busy until that time). -/
inductive BusyOut where
  | busyBool (b : Bool)
  | busyAt (t : Nat)
  deriving DecidableEq, Repr

/-- Modelled from the spec: `group.ts` is absent; §4.2 gives the computation
of `busy_time` — concurrency saturation is `BusyIndefinite`, a full frequency
window is `BusyUntil(frequency_starts[0] + frequency_window)`, otherwise
`Ready`.  Purging of stale timestamps is the separate `clean` operation. -/
def Grp.busyTime (g : Grp) : BusyOut :=
  if !(Lim.intLtB g.active g.climit) then .busyBool true
  else
    match g.frequencyLimit with
    | some fl =>
        if fl ≤ g.frequencyStarts.length then
          .busyAt (g.frequencyStarts.headD 0 + g.frequencyWindow)
        else .busyBool false
    | none => .busyBool false

/-- Increment a group for a started invocation (`task.ts` lines 264-269):
`_activePromiseCount++`, and when the group has a frequency limit, push the
current time onto `_frequencyStarts`. -/
def Grp.bump (now : Nat) (g : Grp) : Grp :=
  { g with
    active := g.active + 1
  , frequencyStarts :=
      if g.frequencyLimit.isSome then g.frequencyStarts ++ [now]
      else g.frequencyStarts }

/-- Decrement a group when an invocation settles (`task.ts` lines 281-283). -/
def Grp.dec (g : Grp) : Grp :=
  { g with active := g.active - 1 }

/-- Modelled from the spec: `group._cleanFrequencyStarts` lives in the absent
`group.ts`; §4.2 has it purge entries with timestamp at most
`now - frequency_window` (kept entries satisfy `now < ts + window`). -/
def Grp.purge (now : Nat) (g : Grp) : Grp :=
  { g with frequencyStarts := g.frequencyStarts.filter (fun ts => now < ts + g.frequencyWindow) }

/-- Pointwise update of the group table. -/
def updG (f : Nat → Grp) (gid : Nat) (h : Grp → Grp) : Nat → Grp :=
  fun g => if g = gid then h (f g) else f g

/-- Apply `Grp.bump` to every group listed (with multiplicity), as the
`forEach` of `task.ts` lines 264-269 does over `this._groups`. -/
def bumpAll (f : Nat → Grp) (l : List Nat) (now : Nat) : Nat → Grp :=
  l.foldl (fun acc gid => updG acc gid (Grp.bump now)) f

/-- Apply `Grp.dec` to every group listed, as `task.ts` lines 281-283 do. -/
def decAll (f : Nat → Grp) (l : List Nat) : Nat → Grp :=
  l.foldl (fun acc gid => updG acc gid Grp.dec) f

/-- Apply `Grp.purge` to every group listed
(`task._cleanFrequencyStarts`, `task.ts` lines 225-231, which skips the
global group at index 0 of the task's group list). -/
def purgeAll (f : Nat → Grp) (l : List Nat) (now : Nat) : Nat → Grp :=
  l.foldl (fun acc gid => updG acc gid (Grp.purge now)) f

/-- A task as scheduled by the machine: its group list (slot 0 the pool's
global group, slot 1 its private group, then user groups — `task.ts`
lines 52-62), its private group index, invocation bookkeeping and state. -/
structure TaskSt where
  groupIds : List Nat
  taskGid : Nat
  invocations : Nat
  invocationLimit : Lim
  state : TState
  rejected : Bool
  deriving DecidableEq, Repr

/-- The task a never-created index maps to. -/
def dfltTask : TaskSt :=
  { groupIds := []
  , taskGid := 0
  , invocations := 0
  , invocationLimit := .inf
  , state := .terminated
  , rejected := false }

/-- Pointwise update of the task table. -/
def updT (f : Nat → TaskSt) (tid : Nat) (h : TaskSt → TaskSt) : Nat → TaskSt :=
  fun t => if t = tid then h (f t) else f t

/-- An invocation that has been started and whose completion handler has not
yet run; `resultIndex` is the captured invocation number and `groupIds` the
task's group list, whose counters the handler will decrement. -/
structure PendingInv where
  taskId : Nat
  resultIndex : Nat
  groupIds : List Nat
  deriving DecidableEq, Repr

/-- The scheduler state: the table of groups (index 0 is the pool's global
group), the indices handed out by `addGroup` (the only groups user code can
pass in `params.groups`), the task table, the in-flight invocations and the
clock. -/
structure PoolSt where
  groups : Nat → Grp
  nextGid : Nat
  userGids : List Nat
  tasks : Nat → TaskSt
  nextTid : Nat
  pending : List PendingInv
  now : Nat

/-- A fresh pool: only the global group exists (index 0), built from the pool
construction options. -/
def init (pp : GrpParams) : PoolSt :=
  { groups := fun gid => if gid = 0 then mkGrp pp else dfltGrp
  , nextGid := 1
  , userGids := []
  , tasks := fun _ => dfltTask
  , nextTid := 0
  , pending := []
  , now := 0 }

instance : Inhabited PoolSt :=
  ⟨init { climit := .inf, frequencyLimit := none, frequencyWindow := 0 }⟩

/-- Translation of `task._busyTime`'s loop (`task.ts` lines 211-222): fold the
groups' busy values, tracking the max numeric time, aborting (`none`) when a
group reports indefinitely busy. -/
def busyFold (f : Nat → Grp) : List Nat → Nat → Option Nat
  | [], time => some time
  | gid :: rest, time =>
      match (f gid).busyTime with
      | .busyAt t => busyFold f rest (if time < t then t else time)
      | .busyBool true => none
      | .busyBool false => busyFold f rest time

/-- Translation of `task._busyTime` (`task.ts` lines 206-223): a non-active
task is busy; otherwise combine the groups' busy values, and `time ? time :
false` maps a zero max back to ready. -/
def taskBusyTime (s : PoolSt) (t : TaskSt) : BusyOut :=
  if t.state ≠ .active then .busyBool true
  else
    match busyFold s.groups t.groupIds 0 with
    | none => .busyBool true
    | some time => if time ≠ 0 then .busyAt time else .busyBool false

/-- Set only the state field of a task. -/
def setTaskState (s : PoolSt) (tid : Nat) (st : TState) : PoolSt :=
  { s with tasks := updT s.tasks tid (fun t => { t with state := st }) }

/-- Translation of `task.end()` (`task.ts` lines 184-200): below Terminated
with no live promise on the private group, become Terminated; otherwise, if
below Exhausted, become Exhausted.  (The detach and waiter-resolution side
effects concern group task counts and waiters, outside this machine.) -/
def endEffect (s : PoolSt) (tid : Nat) : PoolSt :=
  if (s.tasks tid).state.rank < TState.terminated.rank ∧
      (s.groups (s.tasks tid).taskGid).active ≤ 0 then
    setTaskState s tid .terminated
  else if (s.tasks tid).state.rank < TState.exhausted.rank then
    setTaskState s tid .exhausted
  else s

/-- Translation of `task._reject` (`task.ts` lines 332-348) as far as the
machine observes it: a second failure changes nothing here; a first failure
records the rejection and calls `end()`. -/
def rejectEffect (s : PoolSt) (tid : Nat) : PoolSt :=
  if (s.tasks tid).rejected then s
  else
    endEffect { s with tasks := updT s.tasks tid (fun t => { t with rejected := true }) } tid

/-- What the generator returned when the scheduler invoked it: a synchronous
throw, the null sentinel, or a promise (non-promise values are wrapped by
`Promise.resolve`, `task.ts` lines 260-263, and behave as promises). -/
inductive GenOutcome where
  | throws
  | nullRet
  | promiseRet
  deriving DecidableEq, Repr

/-- The operations of the machine.  `run`, `complete` and `clean` carry the
environment's choices (which generator outcome, which pending invocation
settles and whether it rejects).  `setInvocationLimit` is the setter of
`task.ts` lines 90-104; `setConcurrencyLimit` covers the runtime
concurrency-limit mutation surface — the task setter of `task.ts` lines
110-112 (delegating to the task's private group), and the group and pool
setters of the absent `group.ts`/`pool.ts`, modelled from spec §4.2/§6 as
setting the limit after validation. -/
inductive Op where
  | addGroup (p : GrpParams)
  | addTask (grp : GrpParams) (invocationLimit : Lim) (userGids : List Nat) (paused : Bool)
  | run (tid : Nat) (outcome : GenOutcome)
  | complete (pidx : Nat) (rejectedRun : Bool)
  | endTask (tid : Nat)
  | pause (tid : Nat)
  | resume (tid : Nat)
  | setInvocationLimit (tid : Nat) (val : Lim)
  | setConcurrencyLimit (gid : Nat) (val : Lim)
  | clean (tid : Nat)
  | tick (dt : Nat)

/-- One step of the machine; `none` when the operation's guard fails (an
invalid argument, a task that is not ready, or a completion that does not
exist). -/
def apply (s : PoolSt) : Op → Option PoolSt
  | .addGroup p =>
      if validGrpParams p then
        some { s with
          groups := updG s.groups s.nextGid (fun _ => mkGrp p)
        , userGids := s.nextGid :: s.userGids
        , nextGid := s.nextGid + 1 }
      else none
  | .addTask grp il userGids paused =>
      if validGrpParams grp && userGids.all (fun g => s.userGids.contains g) then
        let taskGid := s.nextGid
        let t : TaskSt :=
          { groupIds := 0 :: taskGid :: userGids
          , taskGid := taskGid
          , invocations := 0
          , invocationLimit := il
          , state :=
              if il.leZeroB then .terminated
              else if paused then .paused else .active
          , rejected := false }
        some { s with
          groups := updG s.groups taskGid (fun _ => mkGrp grp)
        , nextGid := s.nextGid + 1
        , tasks := updT s.tasks s.nextTid (fun _ => t)
        , nextTid := s.nextTid + 1 }
      else none
  | .run tid outcome =>
      if tid < s.nextTid then
        let t := s.tasks tid
        if t.state = .active ∧ taskBusyTime s t = .busyBool false then
          if Lim.natGeB t.invocations t.invocationLimit then
            some (endEffect s tid)
          else
            match outcome with
            | .throws => some (rejectEffect s tid)
            | .nullRet => some (if t.state = .active then endEffect s tid else s)
            | .promiseRet =>
                let s1 := { s with groups := bumpAll s.groups t.groupIds s.now }
                let s2 :=
                  { s1 with
                    tasks := updT s1.tasks tid (fun u => { u with invocations := u.invocations + 1 })
                  , pending := s1.pending ++ [⟨tid, t.invocations, t.groupIds⟩] }
                some (if Lim.natGeB (t.invocations + 1) t.invocationLimit then endEffect s2 tid else s2)
        else none
      else none
  | .complete pidx rejectedRun =>
      match s.pending.get? pidx with
      | none => none
      | some e =>
          let s1 := if rejectedRun then rejectEffect s e.taskId else s
          let s2 :=
            { s1 with
              groups := decAll s1.groups e.groupIds
            , pending := s1.pending.eraseIdx pidx }
          let t := s2.tasks e.taskId
          some (if TState.exhausted.rank ≤ t.state.rank ∧ (s2.groups t.taskGid).active ≤ 0 then
            endEffect s2 e.taskId
          else s2)
  | .endTask tid =>
      if tid < s.nextTid then some (endEffect s tid) else none
  | .pause tid =>
      if tid < s.nextTid then
        some (if (s.tasks tid).state = .active then setTaskState s tid .paused else s)
      else none
  | .resume tid =>
      if tid < s.nextTid then
        some (if (s.tasks tid).state = .paused then setTaskState s tid .active else s)
      else none
  | .setInvocationLimit tid val =>
      if tid < s.nextTid then
        let s1 := { s with tasks := updT s.tasks tid (fun t => { t with invocationLimit := val }) }
        some (if Lim.natGeB (s.tasks tid).invocations val then endEffect s1 tid else s1)
      else none
  | .setConcurrencyLimit gid val =>
      if gid < s.nextGid && val.validB then
        some { s with groups := updG s.groups gid (fun g => { g with climit := val }) }
      else none
  | .clean tid =>
      if tid < s.nextTid then
        some { s with groups := purgeAll s.groups ((s.tasks tid).groupIds.drop 1) s.now }
      else none
  | .tick dt => some { s with now := s.now + dt }

/-- Execute a list of operations from a state, failing if any guard fails. -/
def runOps (s : PoolSt) (ops : List Op) : Option PoolSt :=
  ops.foldlM apply s

/-- The side condition of the amended claim C1 on one operation, evaluated in
the state it is applied to.  The constructor of `task.ts` (lines 53-62) does
not deduplicate `params.groups`, and a runtime concurrency-limit mutation may
set a limit below the group's live active count (nothing cancels in-flight
invocations, spec §5); a step is safe when the task being added lists no
user group twice and a mutated limit is not below the live count. -/
def safeStepB (s : PoolSt) : Op → Bool
  | .addTask _ _ userGids _ => decide userGids.Nodup
  | .setConcurrencyLimit gid val => Lim.intLeB (s.groups gid).active val
  | _ => true

/-- Whether every operation of a run is safe in the state it encounters. -/
def safeRunB : PoolSt → List Op → Bool
  | _, [] => true
  | s, op :: ops =>
      safeStepB s op &&
        (match apply s op with
          | some s1 => safeRunB s1 ops
          | none => false)

end PromisePool
namespace PromisePool

theorem updG_eval (f : Nat → Grp) (gid : Nat) (h : Grp → Grp) (g : Nat) :
    updG f gid h g = if g = gid then h (f g) else f g := rfl

theorem updT_eval (f : Nat → TaskSt) (tid : Nat) (h : TaskSt → TaskSt) (t : Nat) :
    updT f tid h t = if t = tid then h (f t) else f t := rfl

/-- A pointwise property preserved by the per-group update is preserved by the
fold over a group list. -/
theorem foldl_updG_pres (P : Grp → Prop) (h : Grp → Grp)
    (hp : ∀ g, P g → P (h g)) (l : List Nat) :
    ∀ (f : Nat → Grp) (gid : Nat), P (f gid) →
      P ((l.foldl (fun acc g2 => updG acc g2 h) f) gid) := by
  induction l with
  | nil => intro f gid hP; exact hP
  | cons a l ih =>
      intro f gid hP
      have hstep : (a :: l).foldl (fun acc g2 => updG acc g2 h) f
          = l.foldl (fun acc g2 => updG acc g2 h) (updG f a h) := rfl
      rw [hstep]
      refine ih (updG f a h) gid ?_
      rw [updG_eval]
      split
      · exact hp _ hP
      · exact hP

theorem bumpAll_active (l : List Nat) :
    ∀ (f : Nat → Grp) (now gid : Nat),
      (bumpAll f l now gid).active = (f gid).active + (l.count gid : Int) := by
  induction l with
  | nil => intro f now gid; simp [bumpAll]
  | cons a l ih =>
      intro f now gid
      have hstep : bumpAll f (a :: l) now = bumpAll (updG f a (Grp.bump now)) l now := rfl
      rw [hstep, ih]
      rw [updG_eval]
      by_cases h : gid = a
      · subst h
        simp [Grp.bump, List.count_cons]
        ring
      · have : (a == gid) = false := by
          simp [Ne.symm h]
        simp [h, List.count_cons, this]

theorem decAll_active (l : List Nat) :
    ∀ (f : Nat → Grp) (gid : Nat),
      (decAll f l gid).active = (f gid).active - (l.count gid : Int) := by
  induction l with
  | nil => intro f gid; simp [decAll]
  | cons a l ih =>
      intro f gid
      have hstep : decAll f (a :: l) = decAll (updG f a Grp.dec) l := rfl
      rw [hstep, ih]
      rw [updG_eval]
      by_cases h : gid = a
      · subst h
        simp [Grp.dec, List.count_cons]
        ring
      · have : (a == gid) = false := by
          simp [Ne.symm h]
        simp [h, List.count_cons, this]

theorem bumpAll_climit (l : List Nat) (f : Nat → Grp) (now gid : Nat) :
    (bumpAll f l now gid).climit = (f gid).climit :=
  foldl_updG_pres (fun g => g.climit = (f gid).climit) (Grp.bump now) (fun _ h => h) l f gid rfl

theorem decAll_climit (l : List Nat) (f : Nat → Grp) (gid : Nat) :
    (decAll f l gid).climit = (f gid).climit :=
  foldl_updG_pres (fun g => g.climit = (f gid).climit) Grp.dec (fun _ h => h) l f gid rfl

theorem purgeAll_climit (l : List Nat) (f : Nat → Grp) (now gid : Nat) :
    (purgeAll f l now gid).climit = (f gid).climit :=
  foldl_updG_pres (fun g => g.climit = (f gid).climit) (Grp.purge now) (fun _ h => h) l f gid rfl

theorem purgeAll_active (l : List Nat) (f : Nat → Grp) (now gid : Nat) :
    (purgeAll f l now gid).active = (f gid).active :=
  foldl_updG_pres (fun g => g.active = (f gid).active) (Grp.purge now) (fun _ h => h) l f gid rfl

/-- The group property backing claim C9: a group with no frequency limit has
an empty timestamp list.  It is preserved by every per-group update the
machine performs. -/
def NoFreqNoStarts (g : Grp) : Prop :=
  g.frequencyLimit = none → g.frequencyStarts = []

theorem bump_noFreq (now : Nat) (g : Grp) (h : NoFreqNoStarts g) :
    NoFreqNoStarts (Grp.bump now g) := by
  intro hn
  have hn2 : g.frequencyLimit = none := hn
  have := h hn2
  simp [Grp.bump, hn2, this]

theorem dec_noFreq (g : Grp) (h : NoFreqNoStarts g) : NoFreqNoStarts (Grp.dec g) := h

theorem purge_noFreq (now : Nat) (g : Grp) (h : NoFreqNoStarts g) :
    NoFreqNoStarts (Grp.purge now g) := by
  intro hn
  have hn2 : g.frequencyLimit = none := hn
  simp [Grp.purge, h hn2]

theorem map_sum_eraseIdx (f : PendingInv → Int) :
    ∀ (l : List PendingInv) (pidx : Nat) (e : PendingInv),
      l.get? pidx = some e →
      ((l.eraseIdx pidx).map f).sum = (l.map f).sum - f e := by
  intro l
  induction l with
  | nil => intro pidx e h; simp at h
  | cons a l ih =>
      intro pidx e h
      cases pidx with
      | zero =>
          simp only [List.get?_cons_zero, Option.some.injEq] at h
          subst h
          simp [List.eraseIdx]
      | succ p =>
          simp only [List.get?_cons_succ] at h
          have := ih p e h
          simp [List.eraseIdx, this]
          ring

end PromisePool
namespace PromisePool

theorem endEffect_cases (s : PoolSt) (tid : Nat) :
    endEffect s tid = setTaskState s tid .terminated ∨
    endEffect s tid = setTaskState s tid .exhausted ∨
    endEffect s tid = s := by
  unfold endEffect
  split
  · exact Or.inl rfl
  · split
    · exact Or.inr (Or.inl rfl)
    · exact Or.inr (Or.inr rfl)

theorem setTaskState_groups (s : PoolSt) (tid : Nat) (st : TState) :
    (setTaskState s tid st).groups = s.groups := rfl

theorem setTaskState_pending (s : PoolSt) (tid : Nat) (st : TState) :
    (setTaskState s tid st).pending = s.pending := rfl

theorem setTaskState_nextGid (s : PoolSt) (tid : Nat) (st : TState) :
    (setTaskState s tid st).nextGid = s.nextGid := rfl

theorem setTaskState_nextTid (s : PoolSt) (tid : Nat) (st : TState) :
    (setTaskState s tid st).nextTid = s.nextTid := rfl

theorem setTaskState_userGids (s : PoolSt) (tid : Nat) (st : TState) :
    (setTaskState s tid st).userGids = s.userGids := rfl

theorem setTaskState_tasks_eval (s : PoolSt) (tid : Nat) (st : TState) (t2 : Nat) :
    (setTaskState s tid st).tasks t2 =
      if t2 = tid then { s.tasks t2 with state := st } else s.tasks t2 := rfl

theorem endEffect_groups (s : PoolSt) (tid : Nat) : (endEffect s tid).groups = s.groups := by
  rcases endEffect_cases s tid with h | h | h <;> rw [h] <;> rfl

theorem endEffect_pending (s : PoolSt) (tid : Nat) : (endEffect s tid).pending = s.pending := by
  rcases endEffect_cases s tid with h | h | h <;> rw [h] <;> rfl

theorem endEffect_nextGid (s : PoolSt) (tid : Nat) : (endEffect s tid).nextGid = s.nextGid := by
  rcases endEffect_cases s tid with h | h | h <;> rw [h] <;> rfl

theorem endEffect_nextTid (s : PoolSt) (tid : Nat) : (endEffect s tid).nextTid = s.nextTid := by
  rcases endEffect_cases s tid with h | h | h <;> rw [h] <;> rfl

theorem endEffect_userGids (s : PoolSt) (tid : Nat) : (endEffect s tid).userGids = s.userGids := by
  rcases endEffect_cases s tid with h | h | h <;> rw [h] <;> rfl

theorem endEffect_tasks_groupIds (s : PoolSt) (tid t2 : Nat) :
    ((endEffect s tid).tasks t2).groupIds = (s.tasks t2).groupIds := by
  rcases endEffect_cases s tid with h | h | h <;> rw [h] <;>
    simp [setTaskState_tasks_eval] <;> split <;> rfl

theorem endEffect_tasks_invocations (s : PoolSt) (tid t2 : Nat) :
    ((endEffect s tid).tasks t2).invocations = (s.tasks t2).invocations := by
  rcases endEffect_cases s tid with h | h | h <;> rw [h] <;>
    simp [setTaskState_tasks_eval] <;> split <;> rfl

theorem endEffect_tasks_invocationLimit (s : PoolSt) (tid t2 : Nat) :
    ((endEffect s tid).tasks t2).invocationLimit = (s.tasks t2).invocationLimit := by
  rcases endEffect_cases s tid with h | h | h <;> rw [h] <;>
    simp [setTaskState_tasks_eval] <;> split <;> rfl

theorem endEffect_tasks_taskGid (s : PoolSt) (tid t2 : Nat) :
    ((endEffect s tid).tasks t2).taskGid = (s.tasks t2).taskGid := by
  rcases endEffect_cases s tid with h | h | h <;> rw [h] <;>
    simp [setTaskState_tasks_eval] <;> split <;> rfl

/-- `end()` leaves every task at or above its previous state in the
`TaskState` order. -/
theorem endEffect_rank_mono (s : PoolSt) (tid t2 : Nat) :
    ((s.tasks t2).state).rank ≤ (((endEffect s tid).tasks t2).state).rank := by
  unfold endEffect
  split
  · rename_i hcond
    rw [setTaskState_tasks_eval]
    split
    · rename_i heq
      subst heq
      have := hcond.1
      simp [TState.rank] at this ⊢
      omega
    · exact Nat.le_refl _
  · split
    · rename_i hcond2
      rw [setTaskState_tasks_eval]
      split
      · rename_i heq
        subst heq
        simp [TState.rank] at hcond2 ⊢
        omega
      · exact Nat.le_refl _
    · exact Nat.le_refl _

/-- After `end()` the ended task is at least Exhausted. -/
theorem endEffect_rank_ge_two (s : PoolSt) (tid : Nat) :
    2 ≤ (((endEffect s tid).tasks tid).state).rank := by
  unfold endEffect
  split
  · rw [setTaskState_tasks_eval]
    simp [TState.rank]
  · split
    · rw [setTaskState_tasks_eval]
      simp [TState.rank]
    · rename_i h1 h2
      simp only [TState.rank] at h2 ⊢
      omega

theorem rejectEffect_cases (s : PoolSt) (tid : Nat) :
    rejectEffect s tid = s ∨
    rejectEffect s tid =
      endEffect { s with tasks := updT s.tasks tid (fun t => { t with rejected := true }) } tid := by
  unfold rejectEffect
  split
  · exact Or.inl rfl
  · exact Or.inr rfl

end PromisePool
namespace PromisePool

/-- A group that does not report `BusyIndefinite` has spare concurrency. -/
theorem busyTime_ne_true (g : Grp) (h : g.busyTime ≠ .busyBool true) :
    Lim.intLtB g.active g.climit = true := by
  by_cases hc : Lim.intLtB g.active g.climit = true
  · exact hc
  · exfalso
    apply h
    unfold Grp.busyTime
    simp [hc]

/-- When the busy fold completes with a numeric value, every group along the
way had spare concurrency. -/
theorem busyFold_ready (f : Nat → Grp) :
    ∀ (l : List Nat) (time time2 : Nat), busyFold f l time = some time2 →
      ∀ gid ∈ l, Lim.intLtB (f gid).active (f gid).climit = true := by
  intro l
  induction l with
  | nil => intro time time2 _ gid hg; simp at hg
  | cons a l ih =>
      intro time time2 hfold gid hg
      rw [busyFold] at hfold
      rcases List.mem_cons.mp hg with rfl | hmem
      · rcases hbt : (f gid).busyTime with b | t
        · cases b with
          | true => rw [hbt] at hfold; exact absurd hfold (by simp)
          | false => exact busyTime_ne_true _ (by rw [hbt]; simp)
        · exact busyTime_ne_true _ (by rw [hbt]; simp)
      · rcases hbt : (f a).busyTime with b | t
        · cases b with
          | true => rw [hbt] at hfold; exact absurd hfold (by simp)
          | false =>
              rw [hbt] at hfold
              exact ih time time2 hfold gid hmem
        · rw [hbt] at hfold
          exact ih _ time2 hfold gid hmem

/-- A task the scheduler finds ready has spare concurrency on each of its
groups. -/
theorem taskBusyTime_ready (s : PoolSt) (t : TaskSt)
    (h : taskBusyTime s t = .busyBool false) :
    ∀ gid ∈ t.groupIds, Lim.intLtB ((s.groups gid).active) ((s.groups gid).climit) = true := by
  unfold taskBusyTime at h
  split at h
  · exact absurd h (by simp)
  · rcases hfold : busyFold s.groups t.groupIds 0 with _ | time
    · rw [hfold] at h; exact absurd h (by simp)
    · exact busyFold_ready s.groups t.groupIds 0 time hfold

theorem intLtB_to_leB_succ (a : Int) (l : Lim) (h : Lim.intLtB a l = true) :
    Lim.intLeB (a + 1) l = true := by
  cases l with
  | fin n =>
      simp [Lim.intLtB] at h
      simp [Lim.intLeB]
      omega
  | inf => rfl

theorem intLeB_mono (a b : Int) (l : Lim) (hab : a ≤ b) (h : Lim.intLeB b l = true) :
    Lim.intLeB a l = true := by
  cases l with
  | fin n =>
      simp [Lim.intLeB] at h ⊢
      omega
  | inf => rfl

theorem intLeB_zero (l : Lim) : Lim.intLeB 0 l = true := by
  cases l with
  | fin n => simp [Lim.intLeB]
  | inf => rfl

theorem natLeB_zero (l : Lim) : Lim.natLeB 0 l = true := by
  cases l with
  | fin n => simp [Lim.natLeB]
  | inf => rfl

theorem natGeB_false_succ (a : Nat) (l : Lim) (h : Lim.natGeB a l = false) :
    Lim.natLeB (a + 1) l = true := by
  cases l with
  | fin n =>
      simp [Lim.natGeB] at h
      simp [Lim.natLeB]
      omega
  | inf => rfl

theorem natGeB_false_le (a : Nat) (l : Lim) (h : Lim.natGeB a l = false) :
    Lim.natLeB a l = true := by
  cases l with
  | fin n =>
      simp [Lim.natGeB] at h
      simp [Lim.natLeB]
      omega
  | inf => rfl

/-- Invariant preservation along a run of machine operations. -/
theorem runOps_inv (P : PoolSt → Prop)
    (hstep : ∀ s op s2, P s → apply s op = some s2 → P s2) :
    ∀ (ops : List Op) (s0 s : PoolSt), P s0 → runOps s0 ops = some s → P s := by
  intro ops
  induction ops with
  | nil =>
      intro s0 s hP hrun
      simp [runOps, List.foldlM] at hrun
      rwa [hrun] at hP
  | cons op ops ih =>
      intro s0 s hP hrun
      rw [runOps, List.foldlM_cons] at hrun
      rcases happ : apply s0 op with _ | s1
      · rw [happ] at hrun; exact absurd hrun (by simp)
      · rw [happ] at hrun
        exact ih s1 s (hstep s0 op s1 hP happ) hrun

/-- Invariant preservation when every operation of the run is additionally
safe in the state it encounters. -/
theorem runOps_inv_safe (P : PoolSt → Prop)
    (hstep : ∀ s op s2, safeStepB s op = true → P s → apply s op = some s2 → P s2) :
    ∀ (ops : List Op) (s0 s : PoolSt), safeRunB s0 ops = true → P s0 →
      runOps s0 ops = some s → P s := by
  intro ops
  induction ops with
  | nil =>
      intro s0 s _ hP hrun
      simp [runOps, List.foldlM] at hrun
      rwa [hrun] at hP
  | cons op ops ih =>
      intro s0 s hQ hP hrun
      rw [runOps, List.foldlM_cons] at hrun
      rw [safeRunB] at hQ
      rcases happ : apply s0 op with _ | s1
      · rw [happ] at hrun; exact absurd hrun (by simp)
      · rw [happ] at hrun
        rw [happ, Bool.and_eq_true] at hQ
        exact ih s1 s hQ.2 (hstep s0 op s1 hQ.1 hP happ) hrun

end PromisePool
namespace PromisePool

theorem mkGrp_noFreq (p : GrpParams) : NoFreqNoStarts (mkGrp p) := by
  intro _
  rfl

theorem updG_noFreq (f : Nat → Grp) (g0 : Nat) (h : Grp → Grp)
    (hh : ∀ g, NoFreqNoStarts g → NoFreqNoStarts (h g))
    (hf : ∀ gid, NoFreqNoStarts (f gid)) :
    ∀ gid, NoFreqNoStarts (updG f g0 h gid) := by
  intro gid
  rw [updG_eval]
  split
  · exact hh _ (hf gid)
  · exact hf gid

theorem setTaskState_now (s : PoolSt) (tid : Nat) (st : TState) :
    (setTaskState s tid st).now = s.now := rfl

theorem endEffect_now (s : PoolSt) (tid : Nat) : (endEffect s tid).now = s.now := by
  rcases endEffect_cases s tid with h | h | h <;> rw [h] <;> rfl

/-- Fields of the pool unrelated to groups, tasks and pending invocations. -/
def SameShell (s s2 : PoolSt) : Prop :=
  s2.nextGid = s.nextGid ∧ s2.nextTid = s.nextTid ∧ s2.userGids = s.userGids ∧ s2.now = s.now

/-- All task fields except the state flags are unchanged. -/
def TasksCore (s s2 : PoolSt) : Prop :=
  ∀ t2, (s2.tasks t2).groupIds = (s.tasks t2).groupIds ∧
        (s2.tasks t2).taskGid = (s.tasks t2).taskGid ∧
        (s2.tasks t2).invocations = (s.tasks t2).invocations ∧
        (s2.tasks t2).invocationLimit = (s.tasks t2).invocationLimit

/-- Task states only move up the `TaskState` order. -/
def RankMono (s s2 : PoolSt) : Prop :=
  ∀ t2, ((s.tasks t2).state).rank ≤ ((s2.tasks t2).state).rank

theorem sameShell_refl (s : PoolSt) : SameShell s s :=
  ⟨rfl, rfl, rfl, rfl⟩

theorem tasksCore_refl (s : PoolSt) : TasksCore s s :=
  fun _ => ⟨rfl, rfl, rfl, rfl⟩

theorem rankMono_refl (s : PoolSt) : RankMono s s :=
  fun _ => Nat.le_refl _

theorem endEffect_shape (s : PoolSt) (tid : Nat) :
    (endEffect s tid).groups = s.groups ∧
    (endEffect s tid).pending = s.pending ∧
    SameShell s (endEffect s tid) ∧
    TasksCore s (endEffect s tid) ∧
    RankMono s (endEffect s tid) := by
  refine ⟨endEffect_groups s tid, endEffect_pending s tid,
    ⟨endEffect_nextGid s tid, endEffect_nextTid s tid, endEffect_userGids s tid,
      endEffect_now s tid⟩, ?_, ?_⟩
  · intro t2
    exact ⟨endEffect_tasks_groupIds s tid t2, endEffect_tasks_taskGid s tid t2,
      endEffect_tasks_invocations s tid t2, endEffect_tasks_invocationLimit s tid t2⟩
  · intro t2
    exact endEffect_rank_mono s tid t2

theorem rejectEffect_groups (s : PoolSt) (tid : Nat) :
    (rejectEffect s tid).groups = s.groups := by
  rcases rejectEffect_cases s tid with h | h
  · rw [h]
  · rw [h, endEffect_groups]

theorem rejectEffect_pending (s : PoolSt) (tid : Nat) :
    (rejectEffect s tid).pending = s.pending := by
  rcases rejectEffect_cases s tid with h | h
  · rw [h]
  · rw [h, endEffect_pending]

theorem rejectEffect_nextGid (s : PoolSt) (tid : Nat) :
    (rejectEffect s tid).nextGid = s.nextGid := by
  rcases rejectEffect_cases s tid with h | h
  · rw [h]
  · rw [h, endEffect_nextGid]

theorem rejectEffect_nextTid (s : PoolSt) (tid : Nat) :
    (rejectEffect s tid).nextTid = s.nextTid := by
  rcases rejectEffect_cases s tid with h | h
  · rw [h]
  · rw [h, endEffect_nextTid]

theorem rejectEffect_userGids (s : PoolSt) (tid : Nat) :
    (rejectEffect s tid).userGids = s.userGids := by
  rcases rejectEffect_cases s tid with h | h
  · rw [h]
  · rw [h, endEffect_userGids]

theorem rejectEffect_tasks_groupIds (s : PoolSt) (tid t2 : Nat) :
    ((rejectEffect s tid).tasks t2).groupIds = (s.tasks t2).groupIds := by
  rcases rejectEffect_cases s tid with h | h
  · rw [h]
  · rw [h]
    have h2 := endEffect_tasks_groupIds
      { s with tasks := updT s.tasks tid (fun t => { t with rejected := true }) } tid t2
    rw [h2]
    show (updT s.tasks tid (fun t => { t with rejected := true }) t2).groupIds
      = (s.tasks t2).groupIds
    rw [updT_eval]
    split <;> rfl

theorem rejectEffect_now (s : PoolSt) (tid : Nat) : (rejectEffect s tid).now = s.now := by
  rcases rejectEffect_cases s tid with h | h
  · rw [h]
  · rw [h, endEffect_now]

theorem rejectEffect_tasks_invocations (s : PoolSt) (tid t2 : Nat) :
    ((rejectEffect s tid).tasks t2).invocations = (s.tasks t2).invocations := by
  rcases rejectEffect_cases s tid with h | h
  · rw [h]
  · rw [h]
    have h2 := endEffect_tasks_invocations
      { s with tasks := updT s.tasks tid (fun t => { t with rejected := true }) } tid t2
    rw [h2]
    show (updT s.tasks tid (fun t => { t with rejected := true }) t2).invocations
      = (s.tasks t2).invocations
    rw [updT_eval]
    split <;> rfl

theorem rejectEffect_tasks_invocationLimit (s : PoolSt) (tid t2 : Nat) :
    ((rejectEffect s tid).tasks t2).invocationLimit = (s.tasks t2).invocationLimit := by
  rcases rejectEffect_cases s tid with h | h
  · rw [h]
  · rw [h]
    have h2 := endEffect_tasks_invocationLimit
      { s with tasks := updT s.tasks tid (fun t => { t with rejected := true }) } tid t2
    rw [h2]
    show (updT s.tasks tid (fun t => { t with rejected := true }) t2).invocationLimit
      = (s.tasks t2).invocationLimit
    rw [updT_eval]
    split <;> rfl

theorem rejectEffect_tasks_taskGid (s : PoolSt) (tid t2 : Nat) :
    ((rejectEffect s tid).tasks t2).taskGid = (s.tasks t2).taskGid := by
  rcases rejectEffect_cases s tid with h | h
  · rw [h]
  · rw [h]
    have h2 := endEffect_tasks_taskGid
      { s with tasks := updT s.tasks tid (fun t => { t with rejected := true }) } tid t2
    rw [h2]
    show (updT s.tasks tid (fun t => { t with rejected := true }) t2).taskGid
      = (s.tasks t2).taskGid
    rw [updT_eval]
    split <;> rfl

theorem rejectEffect_rank_mono (s : PoolSt) (tid t2 : Nat) :
    ((s.tasks t2).state).rank ≤ (((rejectEffect s tid).tasks t2).state).rank := by
  rcases rejectEffect_cases s tid with h | h
  · rw [h]
  · rw [h]
    have hmid : ((s.tasks t2).state).rank =
        ((({ s with tasks := updT s.tasks tid (fun t => { t with rejected := true }) } : PoolSt).tasks
          t2).state).rank := by
      show ((s.tasks t2).state).rank
        = ((updT s.tasks tid (fun t => { t with rejected := true }) t2).state).rank
      rw [updT_eval]
      split <;> rfl
    rw [hmid]
    exact endEffect_rank_mono _ tid t2

theorem rejectEffect_shape (s : PoolSt) (tid : Nat) :
    (rejectEffect s tid).groups = s.groups ∧
    (rejectEffect s tid).pending = s.pending ∧
    SameShell s (rejectEffect s tid) ∧
    TasksCore s (rejectEffect s tid) ∧
    RankMono s (rejectEffect s tid) := by
  refine ⟨rejectEffect_groups s tid, rejectEffect_pending s tid,
    ⟨rejectEffect_nextGid s tid, rejectEffect_nextTid s tid, rejectEffect_userGids s tid,
      rejectEffect_now s tid⟩, ?_, ?_⟩
  · intro t2
    exact ⟨rejectEffect_tasks_groupIds s tid t2, rejectEffect_tasks_taskGid s tid t2,
      rejectEffect_tasks_invocations s tid t2, rejectEffect_tasks_invocationLimit s tid t2⟩
  · intro t2
    exact rejectEffect_rank_mono s tid t2

end PromisePool
namespace PromisePool

theorem sameShell_trans {a b c : PoolSt} (h1 : SameShell a b) (h2 : SameShell b c) :
    SameShell a c :=
  ⟨h2.1.trans h1.1, h2.2.1.trans h1.2.1, h2.2.2.1.trans h1.2.2.1, h2.2.2.2.trans h1.2.2.2⟩

theorem tasksCore_trans {a b c : PoolSt} (h1 : TasksCore a b) (h2 : TasksCore b c) :
    TasksCore a c := by
  intro t2
  exact ⟨(h2 t2).1.trans (h1 t2).1, (h2 t2).2.1.trans (h1 t2).2.1,
    (h2 t2).2.2.1.trans (h1 t2).2.2.1, (h2 t2).2.2.2.trans (h1 t2).2.2.2⟩

theorem rankMono_trans {a b c : PoolSt} (h1 : RankMono a b) (h2 : RankMono b c) :
    RankMono a c :=
  fun t2 => Nat.le_trans (h1 t2) (h2 t2)

theorem updT_inc_eval (f : Nat → TaskSt) (tid t2 : Nat) :
    updT f tid (fun u => { u with invocations := u.invocations + 1 }) t2
      = if t2 = tid then { f t2 with invocations := (f t2).invocations + 1 } else f t2 := by
  rw [updT_eval]

theorem updT_setLim_eval (f : Nat → TaskSt) (tid : Nat) (val : Lim) (t2 : Nat) :
    updT f tid (fun t => { t with invocationLimit := val }) t2
      = if t2 = tid then { f t2 with invocationLimit := val } else f t2 := by
  rw [updT_eval]

theorem apply_addGroup_shape (s : PoolSt) (p : GrpParams) (s2 : PoolSt)
    (happ : apply s (.addGroup p) = some s2) :
    validGrpParams p = true ∧
    s2.groups = updG s.groups s.nextGid (fun _ => mkGrp p) ∧
    s2.pending = s.pending ∧
    s2.nextGid = s.nextGid + 1 ∧
    s2.nextTid = s.nextTid ∧
    s2.userGids = s.nextGid :: s.userGids ∧
    s2.tasks = s.tasks ∧
    s2.now = s.now := by
  simp only [apply] at happ
  split at happ
  · simp only [Option.some.injEq] at happ
    subst happ
    rename_i hval
    exact ⟨hval, rfl, rfl, rfl, rfl, rfl, rfl, rfl⟩
  · exact absurd happ (by simp)

theorem apply_addTask_shape (s : PoolSt) (grp : GrpParams) (il : Lim) (ug : List Nat)
    (paused : Bool) (s2 : PoolSt)
    (happ : apply s (.addTask grp il ug paused) = some s2) :
    validGrpParams grp = true ∧
    (∀ u ∈ ug, u ∈ s.userGids) ∧
    s2.groups = updG s.groups s.nextGid (fun _ => mkGrp grp) ∧
    s2.pending = s.pending ∧
    s2.nextGid = s.nextGid + 1 ∧
    s2.nextTid = s.nextTid + 1 ∧
    s2.userGids = s.userGids ∧
    s2.now = s.now ∧
    s2.tasks = updT s.tasks s.nextTid (fun _ =>
      { groupIds := 0 :: s.nextGid :: ug
      , taskGid := s.nextGid
      , invocations := 0
      , invocationLimit := il
      , state := if il.leZeroB then .terminated else if paused then .paused else .active
      , rejected := false }) := by
  simp only [apply] at happ
  split at happ
  · simp only [Option.some.injEq] at happ
    subst happ
    rename_i hval
    rw [Bool.and_eq_true] at hval
    refine ⟨hval.1, ?_, rfl, rfl, rfl, rfl, rfl, rfl, rfl⟩
    intro u hu
    have := hval.2
    rw [List.all_eq_true] at this
    have h2 := this u hu
    simpa using h2
  · exact absurd happ (by simp)

theorem apply_run_shape (s : PoolSt) (tid : Nat) (outcome : GenOutcome) (s2 : PoolSt)
    (happ : apply s (.run tid outcome) = some s2) :
    tid < s.nextTid ∧
    (s.tasks tid).state = .active ∧
    taskBusyTime s (s.tasks tid) = .busyBool false ∧
    ((s2.groups = s.groups ∧ s2.pending = s.pending ∧ SameShell s s2 ∧ TasksCore s s2 ∧
        RankMono s s2) ∨
      (Lim.natGeB (s.tasks tid).invocations (s.tasks tid).invocationLimit = false ∧
        s2.groups = bumpAll s.groups ((s.tasks tid).groupIds) s.now ∧
        s2.pending = s.pending ++ [⟨tid, (s.tasks tid).invocations, (s.tasks tid).groupIds⟩] ∧
        SameShell s s2 ∧ RankMono s s2 ∧
        (∀ t2, ((s2.tasks t2).groupIds = (s.tasks t2).groupIds ∧
          (s2.tasks t2).taskGid = (s.tasks t2).taskGid ∧
          (s2.tasks t2).invocationLimit = (s.tasks t2).invocationLimit ∧
          (s2.tasks t2).invocations =
            (if t2 = tid then (s.tasks t2).invocations + 1 else (s.tasks t2).invocations))))) := by
  simp only [apply] at happ
  split at happ
  case isFalse => exact absurd happ (by simp)
  case isTrue htid =>
  split at happ
  case isFalse => exact absurd happ (by simp)
  case isTrue hguard =>
  refine ⟨htid, hguard.1, hguard.2, ?_⟩
  split at happ
  case isTrue hge =>
      simp only [Option.some.injEq] at happ
      subst happ
      left
      have h := endEffect_shape s tid
      exact ⟨h.1, h.2.1, h.2.2.1, h.2.2.2.1, h.2.2.2.2⟩
  case isFalse hge =>
  cases outcome with
  | throws =>
      simp only [Option.some.injEq] at happ
      subst happ
      left
      have h := rejectEffect_shape s tid
      exact ⟨h.1, h.2.1, h.2.2.1, h.2.2.2.1, h.2.2.2.2⟩
  | nullRet =>
      simp only [Option.some.injEq] at happ
      subst happ
      left
      split
      · have h := endEffect_shape s tid
        exact ⟨h.1, h.2.1, h.2.2.1, h.2.2.2.1, h.2.2.2.2⟩
      · exact ⟨rfl, rfl, sameShell_refl s, tasksCore_refl s, rankMono_refl s⟩
  | promiseRet =>
      simp only [Option.some.injEq] at happ
      subst happ
      right
      rw [Bool.not_eq_true] at hge
      refine ⟨hge, ?_⟩
      set smid : PoolSt :=
        { s with
          groups := bumpAll s.groups ((s.tasks tid).groupIds) s.now
        , tasks := updT s.tasks tid (fun u => { u with invocations := u.invocations + 1 })
        , pending := s.pending ++ [⟨tid, (s.tasks tid).invocations, (s.tasks tid).groupIds⟩] }
        with hsmid
      have hupd : ∀ t2, smid.tasks t2 =
          if t2 = tid then { s.tasks t2 with invocations := (s.tasks t2).invocations + 1 }
          else s.tasks t2 := fun t2 => updT_inc_eval s.tasks tid t2
      have hmidtasks : ∀ t2, ((smid.tasks t2).groupIds = (s.tasks t2).groupIds ∧
          (smid.tasks t2).taskGid = (s.tasks t2).taskGid ∧
          (smid.tasks t2).invocationLimit = (s.tasks t2).invocationLimit ∧
          (smid.tasks t2).invocations =
            (if t2 = tid then (s.tasks t2).invocations + 1 else (s.tasks t2).invocations)) := by
        intro t2
        rw [hupd t2]
        by_cases h : t2 = tid <;> simp [h]
      have hmidmono : RankMono s smid := by
        intro t2
        rw [hupd t2]
        by_cases h : t2 = tid <;> simp [h]
      have hmidshell : SameShell s smid := ⟨rfl, rfl, rfl, rfl⟩
      split
      · have h := endEffect_shape smid tid
        refine ⟨h.1, by rw [h.2.1], sameShell_trans hmidshell h.2.2.1,
          rankMono_trans hmidmono h.2.2.2.2, ?_⟩
        intro t2
        have hc := h.2.2.2.1 t2
        have hm := hmidtasks t2
        exact ⟨hc.1.trans hm.1, hc.2.1.trans hm.2.1, hc.2.2.2.trans hm.2.2.1,
          hc.2.2.1.trans hm.2.2.2⟩
      · exact ⟨rfl, rfl, hmidshell, hmidmono, hmidtasks⟩

theorem apply_complete_shape (s : PoolSt) (pidx : Nat) (rejectedRun : Bool) (s2 : PoolSt)
    (happ : apply s (.complete pidx rejectedRun) = some s2) :
    ∃ e, s.pending.get? pidx = some e ∧
      s2.groups = decAll s.groups e.groupIds ∧
      s2.pending = s.pending.eraseIdx pidx ∧
      SameShell s s2 ∧ TasksCore s s2 ∧ RankMono s s2 := by
  simp only [apply] at happ
  rcases hget : s.pending.get? pidx with _ | e
  · rw [hget] at happ
    exact absurd happ (by simp)
  · rw [hget] at happ
    simp only [Option.some.injEq] at happ
    subst happ
    refine ⟨e, rfl, ?_⟩
    set s1 : PoolSt := if rejectedRun then rejectEffect s e.taskId else s with hs1
    have hshape1 : s1.groups = s.groups ∧ s1.pending = s.pending ∧ SameShell s s1 ∧
        TasksCore s s1 ∧ RankMono s s1 := by
      rw [hs1]
      split
      · exact rejectEffect_shape s e.taskId
      · exact ⟨rfl, rfl, sameShell_refl s, tasksCore_refl s, rankMono_refl s⟩
    set smid : PoolSt :=
      { s1 with groups := decAll s1.groups e.groupIds, pending := s1.pending.eraseIdx pidx }
      with hsmid
    have hsg : smid.groups = decAll s.groups e.groupIds := by
      rw [hsmid]
      show decAll s1.groups e.groupIds = _
      rw [hshape1.1]
    have hsp : smid.pending = s.pending.eraseIdx pidx := by
      rw [hsmid]
      show s1.pending.eraseIdx pidx = _
      rw [hshape1.2.1]
    have hshape2 : SameShell s smid ∧ TasksCore s smid ∧ RankMono s smid :=
      ⟨sameShell_trans hshape1.2.2.1 ⟨rfl, rfl, rfl, rfl⟩,
        tasksCore_trans hshape1.2.2.2.1 (fun _ => ⟨rfl, rfl, rfl, rfl⟩),
        rankMono_trans hshape1.2.2.2.2 (fun _ => Nat.le_refl _)⟩
    split
    · have h := endEffect_shape smid e.taskId
      exact ⟨by rw [h.1, hsg], by rw [h.2.1, hsp],
        sameShell_trans hshape2.1 h.2.2.1,
        tasksCore_trans hshape2.2.1 h.2.2.2.1,
        rankMono_trans hshape2.2.2 h.2.2.2.2⟩
    · exact ⟨hsg, hsp, hshape2.1, hshape2.2.1, hshape2.2.2⟩

theorem apply_endTask_shape (s : PoolSt) (tid : Nat) (s2 : PoolSt)
    (happ : apply s (.endTask tid) = some s2) :
    s2.groups = s.groups ∧ s2.pending = s.pending ∧ SameShell s s2 ∧ TasksCore s s2 ∧
      RankMono s s2 := by
  simp only [apply] at happ
  split at happ
  · simp only [Option.some.injEq] at happ
    subst happ
    have h := endEffect_shape s tid
    exact ⟨h.1, h.2.1, h.2.2.1, h.2.2.2.1, h.2.2.2.2⟩
  · exact absurd happ (by simp)

theorem apply_pause_shape (s : PoolSt) (tid : Nat) (s2 : PoolSt)
    (happ : apply s (.pause tid) = some s2) :
    s2.groups = s.groups ∧ s2.pending = s.pending ∧ SameShell s s2 ∧ TasksCore s s2 ∧
      (∀ t2, (s2.tasks t2).state = (s.tasks t2).state ∨
        (t2 = tid ∧ (s.tasks t2).state = .active ∧ (s2.tasks t2).state = .paused)) := by
  simp only [apply] at happ
  split at happ
  · simp only [Option.some.injEq] at happ
    subst happ
    split
    · rename_i hact
      refine ⟨rfl, rfl, ⟨rfl, rfl, rfl, rfl⟩, ?_, ?_⟩
      · intro t2
        rw [setTaskState_tasks_eval]
        by_cases h : t2 = tid <;> simp [h]
      · intro t2
        rw [setTaskState_tasks_eval]
        by_cases h : t2 = tid
        · subst h
          exact Or.inr ⟨rfl, hact, by simp⟩
        · simp [h]
    · exact ⟨rfl, rfl, sameShell_refl s, tasksCore_refl s, fun _ => Or.inl rfl⟩
  · exact absurd happ (by simp)

theorem apply_resume_shape (s : PoolSt) (tid : Nat) (s2 : PoolSt)
    (happ : apply s (.resume tid) = some s2) :
    s2.groups = s.groups ∧ s2.pending = s.pending ∧ SameShell s s2 ∧ TasksCore s s2 ∧
      (∀ t2, (s2.tasks t2).state = (s.tasks t2).state ∨
        (t2 = tid ∧ (s.tasks t2).state = .paused ∧ (s2.tasks t2).state = .active)) := by
  simp only [apply] at happ
  split at happ
  · simp only [Option.some.injEq] at happ
    subst happ
    split
    · rename_i hact
      refine ⟨rfl, rfl, ⟨rfl, rfl, rfl, rfl⟩, ?_, ?_⟩
      · intro t2
        rw [setTaskState_tasks_eval]
        by_cases h : t2 = tid <;> simp [h]
      · intro t2
        rw [setTaskState_tasks_eval]
        by_cases h : t2 = tid
        · subst h
          exact Or.inr ⟨rfl, hact, by simp⟩
        · simp [h]
    · exact ⟨rfl, rfl, sameShell_refl s, tasksCore_refl s, fun _ => Or.inl rfl⟩
  · exact absurd happ (by simp)

theorem apply_setIL_shape (s : PoolSt) (tid : Nat) (val : Lim) (s2 : PoolSt)
    (happ : apply s (.setInvocationLimit tid val) = some s2) :
    s2.groups = s.groups ∧ s2.pending = s.pending ∧ SameShell s s2 ∧
    (∀ t2, (s2.tasks t2).groupIds = (s.tasks t2).groupIds ∧
      (s2.tasks t2).taskGid = (s.tasks t2).taskGid ∧
      (s2.tasks t2).invocations = (s.tasks t2).invocations) ∧
    (∀ t2, t2 ≠ tid → (s2.tasks t2).invocationLimit = (s.tasks t2).invocationLimit) ∧
    (s2.tasks tid).invocationLimit = val ∧
    RankMono s s2 ∧
    (Lim.natGeB (s.tasks tid).invocations val = true → 2 ≤ ((s2.tasks tid).state).rank) := by
  simp only [apply] at happ
  split at happ
  case isFalse => exact absurd happ (by simp)
  case isTrue htid =>
  simp only [Option.some.injEq] at happ
  subst happ
  set s1 : PoolSt :=
    { s with tasks := updT s.tasks tid (fun t => { t with invocationLimit := val }) }
    with hs1
  have hupd : ∀ t2, s1.tasks t2 =
      if t2 = tid then { s.tasks t2 with invocationLimit := val } else s.tasks t2 :=
    fun t2 => updT_setLim_eval s.tasks tid val t2
  have hcore1 : ∀ t2, (s1.tasks t2).groupIds = (s.tasks t2).groupIds ∧
      (s1.tasks t2).taskGid = (s.tasks t2).taskGid ∧
      (s1.tasks t2).invocations = (s.tasks t2).invocations := by
    intro t2
    rw [hupd t2]
    by_cases h : t2 = tid <;> simp [h]
  have hlim1 : ∀ t2, t2 ≠ tid → (s1.tasks t2).invocationLimit = (s.tasks t2).invocationLimit := by
    intro t2 hne
    rw [hupd t2]
    simp [hne]
  have hlimtid : (s1.tasks tid).invocationLimit = val := by
    rw [hupd tid]
    simp
  have hmono1 : RankMono s s1 := by
    intro t2
    rw [hupd t2]
    by_cases h : t2 = tid <;> simp [h]
  split
  case isTrue hge =>
      have h := endEffect_shape s1 tid
      refine ⟨h.1, h.2.1, sameShell_trans ⟨rfl, rfl, rfl, rfl⟩ h.2.2.1, ?_, ?_, ?_, ?_, ?_⟩
      · intro t2
        have hc := h.2.2.2.1 t2
        have hm := hcore1 t2
        exact ⟨hc.1.trans hm.1, hc.2.1.trans hm.2.1, hc.2.2.1.trans hm.2.2⟩
      · intro t2 hne
        have hc := h.2.2.2.1 t2
        exact hc.2.2.2.trans (hlim1 t2 hne)
      · exact ((endEffect_shape s1 tid).2.2.2.1 tid).2.2.2.trans hlimtid
      · exact rankMono_trans hmono1 h.2.2.2.2
      · intro _
        exact endEffect_rank_ge_two s1 tid
  case isFalse hge =>
      refine ⟨rfl, rfl, ⟨rfl, rfl, rfl, rfl⟩, hcore1, hlim1, hlimtid, hmono1, ?_⟩
      intro hcontra
      exact absurd hcontra hge

theorem apply_setCLimit_shape (s : PoolSt) (gid : Nat) (val : Lim) (s2 : PoolSt)
    (happ : apply s (.setConcurrencyLimit gid val) = some s2) :
    Lim.validB val = true ∧
    s2.groups = updG s.groups gid (fun g => { g with climit := val }) ∧
    s2.pending = s.pending ∧ SameShell s s2 ∧ s2.tasks = s.tasks := by
  simp only [apply] at happ
  split at happ
  · simp only [Option.some.injEq] at happ
    subst happ
    rename_i hval
    rw [Bool.and_eq_true] at hval
    exact ⟨hval.2, rfl, rfl, ⟨rfl, rfl, rfl, rfl⟩, rfl⟩
  · exact absurd happ (by simp)

theorem apply_clean_shape (s : PoolSt) (tid : Nat) (s2 : PoolSt)
    (happ : apply s (.clean tid) = some s2) :
    s2.groups = purgeAll s.groups ((s.tasks tid).groupIds.drop 1) s.now ∧
    s2.pending = s.pending ∧ SameShell s s2 ∧ s2.tasks = s.tasks := by
  simp only [apply] at happ
  split at happ
  · simp only [Option.some.injEq] at happ
    subst happ
    exact ⟨rfl, rfl, ⟨rfl, rfl, rfl, rfl⟩, rfl⟩
  · exact absurd happ (by simp)

theorem apply_tick_shape (s : PoolSt) (dt : Nat) (s2 : PoolSt)
    (happ : apply s (.tick dt) = some s2) :
    s2.groups = s.groups ∧ s2.pending = s.pending ∧ s2.tasks = s.tasks ∧
    s2.nextGid = s.nextGid ∧ s2.nextTid = s.nextTid ∧ s2.userGids = s.userGids := by
  simp only [apply, Option.some.injEq] at happ
  subst happ
  exact ⟨rfl, rfl, rfl, rfl, rfl, rfl⟩

end PromisePool
namespace PromisePool

/-- Well-formedness of group indices: every group index recorded anywhere was
actually handed out. -/
def GidB (s : PoolSt) : Prop :=
  0 < s.nextGid ∧
  (∀ tid, ∀ g ∈ (s.tasks tid).groupIds, g < s.nextGid) ∧
  (∀ e ∈ s.pending, ∀ g ∈ e.groupIds, g < s.nextGid) ∧
  (∀ u ∈ s.userGids, u < s.nextGid ∧ u ≠ 0)

theorem gidB_init (pp : GrpParams) : GidB (init pp) := by
  refine ⟨Nat.one_pos, ?_, ?_, ?_⟩
  · intro tid g hg
    simp [init, dfltTask] at hg
  · intro e he
    simp [init] at he
  · intro u hu
    simp [init] at hu

theorem apply_pres_GidB (s : PoolSt) (op : Op) (s2 : PoolSt)
    (hP : GidB s) (happ : apply s op = some s2) : GidB s2 := by
  obtain ⟨hpos, htasks, hpend, huser⟩ := hP
  cases op with
  | addGroup p =>
      obtain ⟨-, -, hp, hng, -, hug, hts, -⟩ := apply_addGroup_shape s p s2 happ
      refine ⟨by omega, ?_, ?_, ?_⟩
      · intro tid g hg
        rw [hts] at hg
        have := htasks tid g hg
        omega
      · intro e he g hg
        rw [hp] at he
        have := hpend e he g hg
        omega
      · intro u hu
        rw [hug] at hu
        rw [hng]
        rcases List.mem_cons.mp hu with rfl | hmem
        · exact ⟨by omega, by omega⟩
        · have := huser u hmem
          exact ⟨by omega, this.2⟩
  | addTask grp il ug paused =>
      obtain ⟨-, hugsub, -, hp, hng, -, hug, -, hts⟩ :=
        apply_addTask_shape s grp il ug paused s2 happ
      refine ⟨by omega, ?_, ?_, ?_⟩
      · intro tid g hg
        rw [hts, updT_eval] at hg
        rw [hng]
        split at hg
        · simp at hg
          rcases hg with rfl | rfl | hmem
          · omega
          · omega
          · have := (huser g (hugsub g hmem)).1
            omega
        · have := htasks tid g hg
          omega
      · intro e he g hg
        rw [hp] at he
        have := hpend e he g hg
        omega
      · intro u hu
        rw [hug] at hu
        have := huser u hu
        exact ⟨by omega, this.2⟩
  | run tid outcome =>
      obtain ⟨-, -, -, hcase⟩ := apply_run_shape s tid outcome s2 happ
      rcases hcase with ⟨hg, hp, hsh, hcore, -⟩ | ⟨-, -, hp, hsh, -, hcore⟩
      · refine ⟨by rw [hsh.1]; exact hpos, ?_, ?_, ?_⟩
        · intro t2 g hg2
          rw [(hcore t2).1] at hg2
          rw [hsh.1]
          exact htasks t2 g hg2
        · intro e he g hg2
          rw [hp] at he
          rw [hsh.1]
          exact hpend e he g hg2
        · intro u hu
          rw [hsh.2.2.1] at hu
          rw [hsh.1]
          exact huser u hu
      · refine ⟨by rw [hsh.1]; exact hpos, ?_, ?_, ?_⟩
        · intro t2 g hg2
          rw [(hcore t2).1] at hg2
          rw [hsh.1]
          exact htasks t2 g hg2
        · intro e he g hg2
          rw [hp] at he
          rw [hsh.1]
          rcases List.mem_append.mp he with hmem | hmem
          · exact hpend e hmem g hg2
          · simp at hmem
            subst hmem
            exact htasks tid g hg2
        · intro u hu
          rw [hsh.2.2.1] at hu
          rw [hsh.1]
          exact huser u hu
  | complete pidx rejectedRun =>
      obtain ⟨e, hget, -, hp, hsh, hcore, -⟩ := apply_complete_shape s pidx rejectedRun s2 happ
      refine ⟨by rw [hsh.1]; exact hpos, ?_, ?_, ?_⟩
      · intro t2 g hg2
        rw [(hcore t2).1] at hg2
        rw [hsh.1]
        exact htasks t2 g hg2
      · intro e2 he g hg2
        rw [hp] at he
        rw [hsh.1]
        have hmem : e2 ∈ s.pending := (List.eraseIdx_sublist s.pending pidx).mem he
        exact hpend e2 hmem g hg2
      · intro u hu
        rw [hsh.2.2.1] at hu
        rw [hsh.1]
        exact huser u hu
  | endTask tid =>
      obtain ⟨-, hp, hsh, hcore, -⟩ := apply_endTask_shape s tid s2 happ
      refine ⟨by rw [hsh.1]; exact hpos, ?_, ?_, ?_⟩
      · intro t2 g hg2
        rw [(hcore t2).1] at hg2
        rw [hsh.1]
        exact htasks t2 g hg2
      · intro e he g hg2
        rw [hp] at he
        rw [hsh.1]
        exact hpend e he g hg2
      · intro u hu
        rw [hsh.2.2.1] at hu
        rw [hsh.1]
        exact huser u hu
  | pause tid =>
      obtain ⟨-, hp, hsh, hcore, -⟩ := apply_pause_shape s tid s2 happ
      refine ⟨by rw [hsh.1]; exact hpos, ?_, ?_, ?_⟩
      · intro t2 g hg2
        rw [(hcore t2).1] at hg2
        rw [hsh.1]
        exact htasks t2 g hg2
      · intro e he g hg2
        rw [hp] at he
        rw [hsh.1]
        exact hpend e he g hg2
      · intro u hu
        rw [hsh.2.2.1] at hu
        rw [hsh.1]
        exact huser u hu
  | resume tid =>
      obtain ⟨-, hp, hsh, hcore, -⟩ := apply_resume_shape s tid s2 happ
      refine ⟨by rw [hsh.1]; exact hpos, ?_, ?_, ?_⟩
      · intro t2 g hg2
        rw [(hcore t2).1] at hg2
        rw [hsh.1]
        exact htasks t2 g hg2
      · intro e he g hg2
        rw [hp] at he
        rw [hsh.1]
        exact hpend e he g hg2
      · intro u hu
        rw [hsh.2.2.1] at hu
        rw [hsh.1]
        exact huser u hu
  | setInvocationLimit tid val =>
      obtain ⟨-, hp, hsh, hcore, -⟩ := apply_setIL_shape s tid val s2 happ
      refine ⟨by rw [hsh.1]; exact hpos, ?_, ?_, ?_⟩
      · intro t2 g hg2
        rw [(hcore t2).1] at hg2
        rw [hsh.1]
        exact htasks t2 g hg2
      · intro e he g hg2
        rw [hp] at he
        rw [hsh.1]
        exact hpend e he g hg2
      · intro u hu
        rw [hsh.2.2.1] at hu
        rw [hsh.1]
        exact huser u hu
  | setConcurrencyLimit gid val =>
      obtain ⟨-, hg, hp, hsh, hts⟩ := apply_setCLimit_shape s gid val s2 happ
      refine ⟨by rw [hsh.1]; exact hpos, ?_, ?_, ?_⟩
      · intro t2 g hg2
        rw [hts] at hg2
        rw [hsh.1]
        exact htasks t2 g hg2
      · intro e he g hg2
        rw [hp] at he
        rw [hsh.1]
        exact hpend e he g hg2
      · intro u hu
        rw [hsh.2.2.1] at hu
        rw [hsh.1]
        exact huser u hu
  | clean tid =>
      obtain ⟨-, hp, hsh, hts⟩ := apply_clean_shape s tid s2 happ
      refine ⟨by rw [hsh.1]; exact hpos, ?_, ?_, ?_⟩
      · intro t2 g hg2
        rw [hts] at hg2
        rw [hsh.1]
        exact htasks t2 g hg2
      · intro e he g hg2
        rw [hp] at he
        rw [hsh.1]
        exact hpend e he g hg2
      · intro u hu
        rw [hsh.2.2.1] at hu
        rw [hsh.1]
        exact huser u hu
  | tick dt =>
      obtain ⟨-, hp, hts, hng, -, hug⟩ := apply_tick_shape s dt s2 happ
      refine ⟨by rw [hng]; exact hpos, ?_, ?_, ?_⟩
      · intro t2 g hg2
        rw [hts] at hg2
        rw [hng]
        exact htasks t2 g hg2
      · intro e he g hg2
        rw [hp] at he
        rw [hng]
        exact hpend e he g hg2
      · intro u hu
        rw [hug] at hu
        rw [hng]
        exact huser u hu

end PromisePool
namespace PromisePool

/-- Single-step preservation: timestamps are only recorded on groups with a
frequency limit. -/
theorem apply_pres_noFreq (s : PoolSt) (op : Op) (s2 : PoolSt)
    (hP : ∀ gid, NoFreqNoStarts (s.groups gid)) (happ : apply s op = some s2) :
    ∀ gid, NoFreqNoStarts (s2.groups gid) := by
  cases op with
  | addGroup p =>
      obtain ⟨-, hg, -⟩ := apply_addGroup_shape s p s2 happ
      rw [hg]
      exact updG_noFreq _ _ _ (fun g _ => mkGrp_noFreq p) hP
  | addTask grp il ug paused =>
      obtain ⟨-, -, hg, -⟩ := apply_addTask_shape s grp il ug paused s2 happ
      rw [hg]
      exact updG_noFreq _ _ _ (fun g _ => mkGrp_noFreq grp) hP
  | run tid outcome =>
      obtain ⟨-, -, -, hcase⟩ := apply_run_shape s tid outcome s2 happ
      rcases hcase with ⟨hg, -⟩ | ⟨-, hg, -⟩
      · rw [hg]; exact hP
      · rw [hg]
        intro gid
        exact foldl_updG_pres NoFreqNoStarts (Grp.bump s.now) (bump_noFreq s.now) _ s.groups gid
          (hP gid)
  | complete pidx rejectedRun =>
      obtain ⟨e, -, hg, -⟩ := apply_complete_shape s pidx rejectedRun s2 happ
      rw [hg]
      intro gid
      exact foldl_updG_pres NoFreqNoStarts Grp.dec dec_noFreq _ s.groups gid (hP gid)
  | endTask tid =>
      obtain ⟨hg, -⟩ := apply_endTask_shape s tid s2 happ
      rw [hg]; exact hP
  | pause tid =>
      obtain ⟨hg, -⟩ := apply_pause_shape s tid s2 happ
      rw [hg]; exact hP
  | resume tid =>
      obtain ⟨hg, -⟩ := apply_resume_shape s tid s2 happ
      rw [hg]; exact hP
  | setInvocationLimit tid val =>
      obtain ⟨hg, -⟩ := apply_setIL_shape s tid val s2 happ
      rw [hg]; exact hP
  | setConcurrencyLimit gid val =>
      obtain ⟨-, hg, -⟩ := apply_setCLimit_shape s gid val s2 happ
      rw [hg]
      exact updG_noFreq _ _ _ (fun _ hgp => hgp) hP
  | clean tid =>
      obtain ⟨hg, -⟩ := apply_clean_shape s tid s2 happ
      rw [hg]
      intro gid
      exact foldl_updG_pres NoFreqNoStarts (Grp.purge s.now) (purge_noFreq s.now) _ s.groups gid
        (hP gid)
  | tick dt =>
      obtain ⟨hg, -⟩ := apply_tick_shape s dt s2 happ
      rw [hg]; exact hP

/-- The per-task relation of claim C5 as amended: either the invocation count
respects the limit, or the task has been ended (state at least Exhausted). -/
def InvLimOk (s : PoolSt) : Prop :=
  ∀ tid, Lim.natLeB (s.tasks tid).invocations (s.tasks tid).invocationLimit = true ∨
    2 ≤ ((s.tasks tid).state).rank

theorem invLimOk_of_core_mono {s s2 : PoolSt} (hc : TasksCore s s2) (hm : RankMono s s2)
    (h : InvLimOk s) : InvLimOk s2 := by
  intro tid
  rcases h tid with hle | hrk
  · left
    rw [(hc tid).2.2.1, (hc tid).2.2.2]
    exact hle
  · right
    exact Nat.le_trans hrk (hm tid)

theorem apply_pres_InvLimOk (s : PoolSt) (op : Op) (s2 : PoolSt)
    (hP : InvLimOk s) (happ : apply s op = some s2) : InvLimOk s2 := by
  cases op with
  | addGroup p =>
      obtain ⟨-, -, -, -, -, -, hts, -⟩ := apply_addGroup_shape s p s2 happ
      intro tid
      rw [hts]
      exact hP tid
  | addTask grp il ug paused =>
      obtain ⟨-, -, -, -, -, -, -, -, hts⟩ := apply_addTask_shape s grp il ug paused s2 happ
      intro tid
      rw [hts, updT_eval]
      split
      · left
        exact natLeB_zero il
      · exact hP tid
  | run tid outcome =>
      obtain ⟨-, -, -, hcase⟩ := apply_run_shape s tid outcome s2 happ
      rcases hcase with ⟨-, -, -, hcore, hmono⟩ | ⟨hge, -, -, -, hmono, htasks⟩
      · exact invLimOk_of_core_mono hcore hmono hP
      · intro t2
        by_cases h : t2 = tid
        · subst h
          left
          rw [(htasks t2).2.2.1, (htasks t2).2.2.2]
          simp only [if_pos rfl]
          exact natGeB_false_succ _ _ hge
        · rcases hP t2 with hle | hrk
          · left
            rw [(htasks t2).2.2.1, (htasks t2).2.2.2, if_neg h]
            exact hle
          · right
            exact Nat.le_trans hrk (hmono t2)
  | complete pidx rejectedRun =>
      obtain ⟨e, -, -, -, -, hcore, hmono⟩ := apply_complete_shape s pidx rejectedRun s2 happ
      exact invLimOk_of_core_mono hcore hmono hP
  | endTask tid =>
      obtain ⟨-, -, -, hcore, hmono⟩ := apply_endTask_shape s tid s2 happ
      exact invLimOk_of_core_mono hcore hmono hP
  | pause tid =>
      obtain ⟨-, -, -, hcore, hstates⟩ := apply_pause_shape s tid s2 happ
      intro t2
      rcases hP t2 with hle | hrk
      · left
        rw [(hcore t2).2.2.1, (hcore t2).2.2.2]
        exact hle
      · rcases hstates t2 with heq | ⟨-, hact, -⟩
        · right
          rw [heq]
          exact hrk
        · rw [hact] at hrk
          simp [TState.rank] at hrk
  | resume tid =>
      obtain ⟨-, -, -, hcore, hstates⟩ := apply_resume_shape s tid s2 happ
      intro t2
      rcases hP t2 with hle | hrk
      · left
        rw [(hcore t2).2.2.1, (hcore t2).2.2.2]
        exact hle
      · rcases hstates t2 with heq | ⟨-, hact, -⟩
        · right
          rw [heq]
          exact hrk
        · rw [hact] at hrk
          simp [TState.rank] at hrk
  | setInvocationLimit tid val =>
      obtain ⟨-, -, -, hcore, hlim, hlimtid, hmono, hend⟩ := apply_setIL_shape s tid val s2 happ
      intro t2
      by_cases h : t2 = tid
      · subst h
        rcases hgeb : Lim.natGeB (s.tasks t2).invocations val with hfalse | htrue
        · left
          rw [(hcore t2).2.2, hlimtid]
          exact natGeB_false_le _ _ hgeb
        · right
          exact hend hgeb
      · rcases hP t2 with hle | hrk
        · left
          rw [(hcore t2).2.2, hlim t2 h]
          exact hle
        · right
          exact Nat.le_trans hrk (hmono t2)
  | setConcurrencyLimit gid val =>
      obtain ⟨-, -, -, -, hts⟩ := apply_setCLimit_shape s gid val s2 happ
      intro t2
      rw [hts]
      exact hP t2
  | clean tid =>
      obtain ⟨-, -, -, hts⟩ := apply_clean_shape s tid s2 happ
      intro t2
      rw [hts]
      exact hP t2
  | tick dt =>
      obtain ⟨-, -, hts, -⟩ := apply_tick_shape s dt s2 happ
      intro t2
      rw [hts]
      exact hP t2

end PromisePool
namespace PromisePool

/-- The number of in-flight invocations charged to a group, counted with the
multiplicity of the group in each invocation's group list. -/
def pendListSum (l : List PendingInv) (gid : Nat) : Int :=
  (l.map (fun e => ((e.groupIds.count gid : Nat) : Int))).sum

/-- The active-count bookkeeping property of claim C10: every group's counter
equals the in-flight invocations charged to it. -/
def ActMatch (s : PoolSt) : Prop :=
  ∀ gid, (s.groups gid).active = pendListSum s.pending gid

theorem pendListSum_append_single (l : List PendingInv) (e : PendingInv) (gid : Nat) :
    pendListSum (l ++ [e]) gid = pendListSum l gid + ((e.groupIds.count gid : Nat) : Int) := by
  simp [pendListSum]

theorem pendListSum_eraseIdx (l : List PendingInv) (pidx : Nat) (e : PendingInv) (gid : Nat)
    (h : l.get? pidx = some e) :
    pendListSum (l.eraseIdx pidx) gid = pendListSum l gid - ((e.groupIds.count gid : Nat) : Int) :=
  map_sum_eraseIdx (fun e2 => ((e2.groupIds.count gid : Nat) : Int)) l pidx e h

theorem pendListSum_zero_of_ub (l : List PendingInv) (gid ub : Nat)
    (h : ∀ e ∈ l, ∀ g ∈ e.groupIds, g < ub) (hub : ub ≤ gid) :
    pendListSum l gid = 0 := by
  induction l with
  | nil => rfl
  | cons e l ih =>
      have hcount : e.groupIds.count gid = 0 := by
        rw [List.count_eq_zero]
        intro hmem
        have := h e (List.mem_cons_self e l) gid hmem
        omega
      have hrest : pendListSum l gid = 0 :=
        ih (fun e2 he2 => h e2 (List.mem_cons_of_mem e he2))
      show ((e.groupIds.count gid : Nat) : Int) + pendListSum l gid = 0
      rw [hcount, hrest]
      rfl

theorem apply_pres_ActMatch (s : PoolSt) (op : Op) (s2 : PoolSt)
    (hGB : GidB s) (hP : ActMatch s) (happ : apply s op = some s2) : ActMatch s2 := by
  obtain ⟨hpos, htasks, hpend, huser⟩ := hGB
  cases op with
  | addGroup p =>
      obtain ⟨-, hg, hp, -⟩ := apply_addGroup_shape s p s2 happ
      intro gid
      rw [hg, hp, updG_eval]
      split
      · rename_i heq
        subst heq
        show (0 : Int) = _
        rw [pendListSum_zero_of_ub s.pending s.nextGid s.nextGid hpend (Nat.le_refl _)]
      · exact hP gid
  | addTask grp il ug paused =>
      obtain ⟨-, -, hg, hp, -⟩ := apply_addTask_shape s grp il ug paused s2 happ
      intro gid
      rw [hg, hp, updG_eval]
      split
      · rename_i heq
        subst heq
        show (0 : Int) = _
        rw [pendListSum_zero_of_ub s.pending s.nextGid s.nextGid hpend (Nat.le_refl _)]
      · exact hP gid
  | run tid outcome =>
      obtain ⟨-, -, -, hcase⟩ := apply_run_shape s tid outcome s2 happ
      rcases hcase with ⟨hg, hp, -⟩ | ⟨-, hg, hp, -⟩
      · intro gid
        rw [hg, hp]
        exact hP gid
      · intro gid
        rw [hg, hp, bumpAll_active, pendListSum_append_single]
        rw [hP gid]
  | complete pidx rejectedRun =>
      obtain ⟨e, hget, hg, hp, -⟩ := apply_complete_shape s pidx rejectedRun s2 happ
      intro gid
      rw [hg, hp, decAll_active, pendListSum_eraseIdx s.pending pidx e gid hget]
      rw [hP gid]
  | endTask tid =>
      obtain ⟨hg, hp, -⟩ := apply_endTask_shape s tid s2 happ
      intro gid
      rw [hg, hp]
      exact hP gid
  | pause tid =>
      obtain ⟨hg, hp, -⟩ := apply_pause_shape s tid s2 happ
      intro gid
      rw [hg, hp]
      exact hP gid
  | resume tid =>
      obtain ⟨hg, hp, -⟩ := apply_resume_shape s tid s2 happ
      intro gid
      rw [hg, hp]
      exact hP gid
  | setInvocationLimit tid val =>
      obtain ⟨hg, hp, -⟩ := apply_setIL_shape s tid val s2 happ
      intro gid
      rw [hg, hp]
      exact hP gid
  | setConcurrencyLimit gid val =>
      obtain ⟨-, hg, hp, -⟩ := apply_setCLimit_shape s gid val s2 happ
      intro g2
      rw [hg, hp, updG_eval]
      split <;> exact hP g2
  | clean tid =>
      obtain ⟨hg, hp, -⟩ := apply_clean_shape s tid s2 happ
      intro gid
      rw [hg, hp, purgeAll_active]
      exact hP gid
  | tick dt =>
      obtain ⟨hg, hp, -⟩ := apply_tick_shape s dt s2 happ
      intro gid
      rw [hg, hp]
      exact hP gid

/-- Duplicate-freedom of every task's group list (what the amended claim C1
assumes of the runs it covers). -/
def TasksND (s : PoolSt) : Prop :=
  ∀ tid, (s.tasks tid).groupIds.Nodup

/-- The invariant of claim C1: no group's active count exceeds its
concurrency limit. -/
def ActBound (s : PoolSt) : Prop :=
  ∀ gid, Lim.intLeB (s.groups gid).active (s.groups gid).climit = true

theorem apply_pres_C1core (s : PoolSt) (op : Op) (s2 : PoolSt)
    (hsafe : safeStepB s op = true) (hGB : GidB s) (hND : TasksND s) (hAB : ActBound s)
    (happ : apply s op = some s2) : TasksND s2 ∧ ActBound s2 := by
  obtain ⟨hpos, htasks, hpend, huser⟩ := hGB
  cases op with
  | addGroup p =>
      obtain ⟨-, hg, -, -, -, -, hts, -⟩ := apply_addGroup_shape s p s2 happ
      constructor
      · intro tid
        rw [hts]
        exact hND tid
      · intro gid
        rw [hg, updG_eval]
        split
        · exact intLeB_zero _
        · exact hAB gid
  | addTask grp il ug paused =>
      obtain ⟨-, hugsub, hg, -, -, -, -, -, hts⟩ :=
        apply_addTask_shape s grp il ug paused s2 happ
      constructor
      · intro tid
        rw [hts, updT_eval]
        split
        · show (0 :: s.nextGid :: ug).Nodup
          have hug : ug.Nodup := of_decide_eq_true hsafe
          refine List.nodup_cons.mpr ⟨?_, List.nodup_cons.mpr ⟨?_, hug⟩⟩
          · intro hmem
            rcases List.mem_cons.mp hmem with h0 | h0
            · omega
            · exact absurd rfl (huser 0 (hugsub 0 h0)).2
          · intro hmem
            have := (huser s.nextGid (hugsub _ hmem)).1
            omega
        · exact hND tid
      · intro gid
        rw [hg, updG_eval]
        split
        · exact intLeB_zero _
        · exact hAB gid
  | run tid outcome =>
      obtain ⟨-, -, hready, hcase⟩ := apply_run_shape s tid outcome s2 happ
      rcases hcase with ⟨hg, -, -, hcore, -⟩ | ⟨-, hg, -, -, -, hcore⟩
      · constructor
        · intro t2
          rw [(hcore t2).1]
          exact hND t2
        · intro gid
          rw [hg]
          exact hAB gid
      · constructor
        · intro t2
          rw [(hcore t2).1]
          exact hND t2
        · intro gid
          rw [hg, bumpAll_active, bumpAll_climit]
          have hcnt : (s.tasks tid).groupIds.count gid ≤ 1 :=
            List.nodup_iff_count_le_one.mp (hND tid) gid
          rcases Nat.le_one_iff_eq_zero_or_eq_one.mp hcnt with hzero | hone
          · rw [hzero]
            show Lim.intLeB ((s.groups gid).active + 0) _ = true
            rw [Int.add_zero]
            exact hAB gid
          · rw [hone]
            have hmem : gid ∈ (s.tasks tid).groupIds := by
              rw [← List.count_pos_iff]
              omega
            have hlt := taskBusyTime_ready s (s.tasks tid) hready gid hmem
            exact intLtB_to_leB_succ _ _ hlt
  | complete pidx rejectedRun =>
      obtain ⟨e, -, hg, -, -, hcore, -⟩ := apply_complete_shape s pidx rejectedRun s2 happ
      constructor
      · intro t2
        rw [(hcore t2).1]
        exact hND t2
      · intro gid
        rw [hg, decAll_active, decAll_climit]
        refine intLeB_mono _ _ _ ?_ (hAB gid)
        omega
  | endTask tid =>
      obtain ⟨hg, -, -, hcore, -⟩ := apply_endTask_shape s tid s2 happ
      constructor
      · intro t2
        rw [(hcore t2).1]
        exact hND t2
      · intro gid
        rw [hg]
        exact hAB gid
  | pause tid =>
      obtain ⟨hg, -, -, hcore, -⟩ := apply_pause_shape s tid s2 happ
      constructor
      · intro t2
        rw [(hcore t2).1]
        exact hND t2
      · intro gid
        rw [hg]
        exact hAB gid
  | resume tid =>
      obtain ⟨hg, -, -, hcore, -⟩ := apply_resume_shape s tid s2 happ
      constructor
      · intro t2
        rw [(hcore t2).1]
        exact hND t2
      · intro gid
        rw [hg]
        exact hAB gid
  | setInvocationLimit tid val =>
      obtain ⟨hg, -, -, hcore, -⟩ := apply_setIL_shape s tid val s2 happ
      constructor
      · intro t2
        rw [(hcore t2).1]
        exact hND t2
      · intro gid
        rw [hg]
        exact hAB gid
  | setConcurrencyLimit gid val =>
      obtain ⟨-, hg, -, -, hts⟩ := apply_setCLimit_shape s gid val s2 happ
      constructor
      · intro t2
        rw [hts]
        exact hND t2
      · intro g2
        rw [hg, updG_eval]
        split
        · rename_i heq
          subst heq
          show Lim.intLeB (s.groups g2).active val = true
          exact hsafe
        · exact hAB g2
  | clean tid =>
      obtain ⟨hg, -, -, hts⟩ := apply_clean_shape s tid s2 happ
      constructor
      · intro t2
        rw [hts]
        exact hND t2
      · intro gid
        rw [hg, purgeAll_active, purgeAll_climit]
        exact hAB gid
  | tick dt =>
      obtain ⟨hg, -, hts, -⟩ := apply_tick_shape s dt s2 happ
      constructor
      · intro t2
        rw [hts]
        exact hND t2
      · intro gid
        rw [hg]
        exact hAB gid

end PromisePool
namespace TaskObs

/-- Read a JavaScript array of possibly-missing values at an index: a hole or
an out-of-range read is `undefined` (`none`). -/
def sget {α : Type} : List (Option α) → Nat → Option α
  | [], _ => none
  | x :: _, 0 => x
  | _ :: l, j + 1 => sget l j

/-- JavaScript array assignment `arr[i] = x`: extends the array with holes as
needed and stores `x` at index `i`. -/
def jsArraySet {α : Type} : List (Option α) → Nat → α → List (Option α)
  | [], 0, x => [some x]
  | [], j + 1, x => none :: jsArraySet [] j x
  | _ :: l, 0, x => some x :: l
  | y :: l, j + 1, x => y :: jsArraySet l j x

/-- The completion handler of `task._run` (`task.ts` lines 284-288): store the
settled value at the invocation's index, skipping the store when the value is
`undefined` (the memory optimisation). -/
def completionStore {α : Type} (l : List (Option α)) (i : Nat) : Option α → List (Option α)
  | none => l
  | some x => jsArraySet l i x

/-- JavaScript `arr.length = n` (`task._resolve`, `task.ts` line 307):
truncate or extend with holes to exactly `n` entries. -/
def jsSetLength {α : Type} : List (Option α) → Nat → List (Option α)
  | _, 0 => []
  | [], n + 1 => none :: jsSetLength [] n
  | x :: l, n + 1 => x :: jsSetLength l n

/-- Replay the completion handlers of a set of invocations in the given
completion order, starting from the given result array; invocation `i`
produced the value `v i`. -/
def runCompletions {α : Type} (v : Nat → Option α) (order : List Nat)
    (l : List (Option α)) : List (Option α) :=
  order.foldl (fun acc i => completionStore acc i (v i)) l

theorem sget_nil {α : Type} (j : Nat) : sget ([] : List (Option α)) j = none := by
  cases j <;> rfl

theorem sget_jsArraySet {α : Type} :
    ∀ (i : Nat) (l : List (Option α)) (j : Nat) (x : α),
      sget (jsArraySet l i x) j = if j = i then some x else sget l j := by
  intro i
  induction i with
  | zero =>
      intro l j x
      cases l with
      | nil =>
          cases j with
          | zero => rfl
          | succ j => simp [jsArraySet, sget, sget_nil]
      | cons y l =>
          cases j with
          | zero => rfl
          | succ j => simp [jsArraySet, sget]
  | succ i ih =>
      intro l j x
      cases l with
      | nil =>
          cases j with
          | zero => simp [jsArraySet, sget]
          | succ j =>
              show sget (jsArraySet [] i x) j = _
              rw [ih [] j x]
              simp [sget_nil, Nat.succ_inj]
      | cons y l =>
          cases j with
          | zero => simp [jsArraySet, sget]
          | succ j =>
              show sget (jsArraySet l i x) j = _
              rw [ih l j x]
              simp [sget, Nat.succ_inj]

theorem length_jsSetLength {α : Type} :
    ∀ (n : Nat) (l : List (Option α)), (jsSetLength l n).length = n := by
  intro n
  induction n with
  | zero => intro l; cases l <;> rfl
  | succ n ih =>
      intro l
      cases l with
      | nil => simp [jsSetLength, ih]
      | cons x l => simp [jsSetLength, ih]

theorem sget_jsSetLength {α : Type} :
    ∀ (n : Nat) (l : List (Option α)) (j : Nat), j < n →
      sget (jsSetLength l n) j = sget l j := by
  intro n
  induction n with
  | zero => intro l j h; omega
  | succ n ih =>
      intro l j h
      cases l with
      | nil =>
          cases j with
          | zero => rfl
          | succ j =>
              show sget (jsSetLength [] n) j = sget [] (j + 1)
              rw [ih [] j (by omega), sget_nil, sget_nil]
      | cons x l =>
          cases j with
          | zero => rfl
          | succ j =>
              show sget (jsSetLength l n) j = sget l j
              exact ih l j (by omega)

theorem sget_runCompletions {α : Type} (v : Nat → Option α) :
    ∀ (order : List Nat) (l : List (Option α)) (j : Nat), order.Nodup →
      sget (runCompletions v order l) j =
        if j ∈ order ∧ (v j).isSome then v j else sget l j := by
  intro order
  induction order with
  | nil =>
      intro l j _
      simp [runCompletions]
  | cons i rest ih =>
      intro l j hnd
      have hstep : runCompletions v (i :: rest) l
          = runCompletions v rest (completionStore l i (v i)) := rfl
      rw [hstep, ih (completionStore l i (v i)) j (List.nodup_cons.mp hnd).2]
      by_cases hjr : j ∈ rest ∧ (v j).isSome
      · rw [if_pos hjr, if_pos ⟨List.mem_cons_of_mem i hjr.1, hjr.2⟩]
      · rw [if_neg hjr]
        by_cases hji : j = i
        · subst hji
          rcases hv : v j with _ | x
          · show sget (completionStore l j none) j = _
            simp [completionStore, hv]
          · show sget (completionStore l j (some x)) j = _
            simp only [completionStore, sget_jsArraySet, if_pos rfl]
            simp [hv]
        · have hcond : ¬(j ∈ i :: rest ∧ (v j).isSome) := by
            intro hc
            rcases List.mem_cons.mp hc.1 with h0 | h0
            · exact hji h0
            · exact hjr ⟨h0, hc.2⟩
          rw [if_neg hcond]
          rcases hv : v i with _ | x
          · show sget (completionStore l i none) j = _
            simp [completionStore]
          · show sget (completionStore l i (some x)) j = _
            simp only [completionStore, sget_jsArraySet]
            rw [if_neg hji]

end TaskObs
namespace TaskObs

open PromisePool (TState)

/-- A recorded task failure (`TaskError` of `private/utils.ts`): the error and
whether some consumer has claimed it. -/
structure TaskErr (ε : Type) where
  error : ε
  handled : Bool
  deriving DecidableEq, Repr

/-- The observable state of one task (`PromisePoolTaskPrivate`): lifecycle
state, the live count of its private group, invocation bookkeeping, the result
buffer and promised value, the recorded rejection, and the waiters created by
`promise()`.  Waiters are counted; the values and errors delivered to them are
logged in order.  `unobservedLog` collects the errors dropped into the
floating `Promise.reject(err)` of `_reject` (`task.ts` line 337). -/
structure TaskSt (α ε : Type) where
  state : TState
  activeCount : Nat
  invocations : Nat
  invocationLimit : Option Int
  result : List (Option α)
  returnResult : Option (List (Option α))
  rejection : Option (TaskErr ε)
  waiters : Nat
  resolvedLog : List (List (Option α))
  rejectedLog : List ε
  unobservedLog : List ε
  deriving DecidableEq, Repr

/-- Translation of `task._resolve` (`task.ts` lines 302-330, without a result
converter): bail out if a rejection is recorded, set the result length to the
invocation count, record the promised value and deliver it to all waiters. -/
def resolveObs {α ε : Type} (t : TaskSt α ε) : TaskSt α ε :=
  if t.rejection.isSome then t
  else
    let res := jsSetLength t.result t.invocations
    { t with
      state := .terminated
    , result := []
    , returnResult := some res
    , resolvedLog := t.resolvedLog ++ List.replicate t.waiters res
    , waiters := 0 }

/-- Translation of `task.end()` (`task.ts` lines 184-200): below Terminated
with no active promise, become Terminated and resolve; otherwise, if below
Exhausted, become Exhausted.  (Group detachment is outside this single-task
model.) -/
def endObs {α ε : Type} (t : TaskSt α ε) : TaskSt α ε :=
  if t.state.rank < TState.terminated.rank ∧ t.activeCount = 0 then
    resolveObs { t with state := .terminated }
  else if t.state.rank < TState.exhausted.rank then
    { t with state := .exhausted }
  else t

/-- Translation of `task._reject` (`task.ts` lines 332-371): a task that has
already failed drops the new error into the unobserved-rejection channel and
changes nothing else; a first failure is recorded, ends the task, and is
delivered to (and marks itself handled for) any existing waiters. -/
def rejectObs {α ε : Type} (t : TaskSt α ε) (err : ε) : TaskSt α ε :=
  if t.rejection.isSome then
    { t with unobservedLog := t.unobservedLog ++ [err] }
  else
    if (endObs { t with rejection := some ⟨err, false⟩ }).waiters ≠ 0 then
      { endObs { t with rejection := some ⟨err, false⟩ } with
        rejection := some ⟨err, true⟩
      , rejectedLog := (endObs { t with rejection := some ⟨err, false⟩ }).rejectedLog
          ++ List.replicate (endObs { t with rejection := some ⟨err, false⟩ }).waiters err
      , waiters := 0 }
    else endObs { t with rejection := some ⟨err, false⟩ }

/-- What a call of `promise()` hands back. -/
inductive PromiseRes (α ε : Type) where
  | rejectedP (e : ε)
  | resolvedP (v : Option (List (Option α)))
  | pendingP
  deriving DecidableEq, Repr

/-- Translation of `task.promise()` (`task.ts` lines 148-159): an existing
rejection is marked handled and returned as a rejected promise; a terminated
task yields its promised value; otherwise a new waiter is registered. -/
def promiseCall {α ε : Type} (t : TaskSt α ε) : TaskSt α ε × PromiseRes α ε :=
  match t.rejection with
  | some te =>
      ({ t with rejection := some ⟨te.error, true⟩ }, .rejectedP te.error)
  | none =>
      if t.state = .terminated then (t, .resolvedP t.returnResult)
      else ({ t with waiters := t.waiters + 1 }, .pendingP)

/-- The deferred unhandled-rejection check of `task._reject` (`task.ts`
lines 361-370): one tick after a failure, an error still unhandled is
surfaced to the host. -/
def deferredCheck {α ε : Type} (t : TaskSt α ε) : Option ε :=
  match t.rejection with
  | some te => if te.handled then none else some te.error
  | none => none

/-- JavaScript comparison `params.invocationLimit <= 0` on an optional
number: false for an absent value (`undefined <= 0` is false). -/
def leZeroOpt : Option Int → Bool
  | some z => decide (z ≤ 0)
  | none => false

/-- Translation of the constructor of `PromisePoolTaskPrivate` (`task.ts`
lines 34-76) as far as this model observes it: record the paused flag and the
validated invocation limit, then `end()` immediately when the given limit is
at most zero.  (`none` is an absent limit, kept as `Infinity`.) -/
def ctor (α ε : Type) (paused : Bool) (invocationLimit : Option Int) : TaskSt α ε :=
  let t0 : TaskSt α ε :=
    { state := if paused then .paused else .active
    , activeCount := 0
    , invocations := 0
    , invocationLimit := invocationLimit
    , result := []
    , returnResult := none
    , rejection := none
    , waiters := 0
    , resolvedLog := []
    , rejectedLog := []
    , unobservedLog := [] }
  if leZeroOpt invocationLimit then endObs t0 else t0

theorem rejectObs_already {α ε : Type} (t : TaskSt α ε) (err : ε) (te : TaskErr ε)
    (h : t.rejection = some te) :
    rejectObs t err = { t with unobservedLog := t.unobservedLog ++ [err] } := by
  rw [rejectObs]
  rw [if_pos (by rw [h]; rfl)]

theorem endObs_rejection {α ε : Type} (t : TaskSt α ε) :
    (endObs t).rejection = t.rejection := by
  rw [endObs]
  split
  · rw [resolveObs]
    split <;> rfl
  · split <;> rfl

theorem endObs_unobserved {α ε : Type} (t : TaskSt α ε) :
    (endObs t).unobservedLog = t.unobservedLog := by
  rw [endObs]
  split
  · rw [resolveObs]
    split <;> rfl
  · split <;> rfl

theorem rejectObs_first {α ε : Type} (t : TaskSt α ε) (err : ε)
    (h : t.rejection = none) :
    ((rejectObs t err).rejection = some ⟨err, false⟩ ∨
      (rejectObs t err).rejection = some ⟨err, true⟩) ∧
    (rejectObs t err).unobservedLog = t.unobservedLog := by
  rw [rejectObs, if_neg (by rw [h]; simp)]
  have hrej : (endObs { t with rejection := some ⟨err, false⟩ }).rejection
      = some ⟨err, false⟩ := by
    rw [endObs_rejection]
  have huno : (endObs { t with rejection := some ⟨err, false⟩ }).unobservedLog
      = t.unobservedLog := by
    rw [endObs_unobserved]
  split
  · exact ⟨Or.inr rfl, huno⟩
  · exact ⟨Or.inl hrej, huno⟩

/-- Folding any list of further failures over a task that has already failed
only appends them, in order, to the unobserved-rejection log. -/
theorem rejectObs_fold_already {α ε : Type} :
    ∀ (errs : List ε) (t : TaskSt α ε) (te : TaskErr ε), t.rejection = some te →
      (errs.foldl rejectObs t).rejection = some te ∧
      (errs.foldl rejectObs t).unobservedLog = t.unobservedLog ++ errs := by
  intro errs
  induction errs with
  | nil =>
      intro t te h
      exact ⟨h, by simp⟩
  | cons e errs ih =>
      intro t te h
      have hstep : (e :: errs).foldl rejectObs t = errs.foldl rejectObs (rejectObs t e) := rfl
      rw [hstep, rejectObs_already t e te h]
      have := ih { t with unobservedLog := t.unobservedLog ++ [e] } te h
      refine ⟨this.1, ?_⟩
      rw [this.2]
      simp

end TaskObs
namespace OldPool

open PromisePool (Lim)

/-- A JavaScript number: `NaN` or an integer value (the source only ever
compares against zero and adds, so integers suffice). -/
inductive JsNum where
  | nan
  | num (z : Int)
  deriving DecidableEq, Repr

/-- JavaScript truthiness of a number: `0` and `NaN` are falsy. -/
def jsNumTruthy : JsNum → Bool
  | .nan => false
  | .num z => decide (z ≠ 0)

/-- What a `batchSize` callback may return: a number, or some non-number
value with the given truthiness. -/
inductive BatchRet where
  | retNum (n : JsNum)
  | retOther (truthy : Bool)

/-- The `batchSize` parameter of `addBatchTask`: a number, a callback
`(elements, freeSlots) → size`, or some other value with the given
truthiness. -/
inductive BatchSizeArg where
  | bsNum (n : JsNum)
  | bsFunc (f : Nat → Nat → BatchRet)
  | bsOther (truthy : Bool)

/-- JavaScript truthiness test `!params.batchSize` (functions are truthy). -/
def bsFalsy : BatchSizeArg → Bool
  | .bsNum n => !jsNumTruthy n
  | .bsFunc _ => false
  | .bsOther t => !t

def isFuncArg : BatchSizeArg → Bool
  | .bsFunc _ => true
  | _ => false

def isNumArg : BatchSizeArg → Bool
  | .bsNum _ => true
  | _ => false

/-- JavaScript `batchSize <= 0` on the argument (false for `NaN` and for
non-numbers, which never reach this comparison). -/
def numLeZero : BatchSizeArg → Bool
  | .bsNum (.num z) => decide (z ≤ 0)
  | _ => false

/-- Translation of the `addBatchTask` validation (`index.ts` lines 461-466):
`!batchSize || typeof batchSize !== "function" && (typeof batchSize !==
"number" || batchSize <= 0)` makes construction fail with a rejected
promise. -/
def batchSizeRejected (bs : BatchSizeArg) : Bool :=
  bsFalsy bs || (!isFuncArg bs && (!isNumArg bs || numLeZero bs))

/-- A positive number, the only `batchSize` value that passes validation
besides a function. -/
def isPosNumArg : BatchSizeArg → Bool
  | .bsNum (.num z) => decide (0 < z)
  | _ => false

/-- Translation of the returned-size validation inside the batch generator
(`index.ts` lines 482-485): `!batchSize || typeof batchSize !== "number" ||
batchSize <= 0` rejects the invocation. -/
def batchRetInvalid : BatchRet → Bool
  | .retNum (.num z) => decide (z ≤ 0)
  | .retNum .nan => true
  | .retOther _ => true

/-- The numeric value of a valid callback return. -/
def batchRetVal : BatchRet → Nat
  | .retNum (.num z) => z.toNat
  | .retNum .nan => 0
  | .retOther _ => 0

/-- The value of the static `batchSize` number. -/
def bsNumVal : BatchSizeArg → Nat
  | .bsNum (.num z) => z.toNat
  | _ => 0

/-- What one call of the generator built by `addBatchTask` does. -/
inductive BatchOut (α : Type) where
  | nullOut
  | rejectedOut
  | genCallOut (values : List α) (startIndex : Nat) (invocation : Nat)
  deriving DecidableEq, Repr

/-- The result of one step of the batch generator: the mutated closure
variable `index`, the observable action, and the arguments the `batchSize`
callback was consulted with (empty if it was not called). -/
structure BatchStepRes (α : Type) where
  newIndex : Nat
  out : BatchOut α
  consulted : List (Nat × Nat)
  deriving DecidableEq, Repr

/-- Translation of the generator closure of `addBatchTask` (`index.ts` lines
471-492).  `index` is the captured mutable cursor; `freeSlots` is the
`status.freeSlots` value the pool reports at this invocation. -/
def batchGenStep {α : Type} (data : List α) (bs : BatchSizeArg) (freeSlots : Nat)
    (index invocation : Nat) : BatchStepRes α :=
  if data.length ≤ index then ⟨index, .nullOut, []⟩
  else
    match bs with
    | .bsFunc f =>
        let r := f (data.length - index) freeSlots
        if batchRetInvalid r then
          ⟨index, .rejectedOut, [(data.length - index, freeSlots)]⟩
        else
          ⟨index + batchRetVal r,
            .genCallOut ((data.drop index).take (batchRetVal r)) index invocation,
            [(data.length - index, freeSlots)]⟩
    | .bsNum n =>
        ⟨index + bsNumVal (.bsNum n),
          .genCallOut ((data.drop index).take (bsNumVal (.bsNum n))) index invocation, []⟩
    | .bsOther _ =>
        ⟨index, .nullOut, []⟩

/-- What a generator returns to `startPromise` (`index.ts` line 141): a
synchronous throw, the null sentinel, or a promise. -/
inductive ORet where
  | throwsR
  | nullR
  | promiseR
  deriving DecidableEq, Repr

/-- The synchronous behaviour of a generator call: return immediately, or
first call `pool.addGenericTask` (re-entering the pool) and continue. -/
inductive OGen where
  | gret (r : ORet)
  | addTaskThen (genF : Nat → OGen) (concurrencyLimit : Lim) (invocationLimit : Lim) (k : OGen)

/-- A task of the legacy pool (`InternalTaskDefinition`, `index.ts` lines
92-104; the promise resolver is outside this synchronous replay). -/
structure OTask where
  tid : Nat
  gen : Nat → OGen
  activeCount : Nat
  concurrencyLimit : Lim
  invocations : Nat
  invocationLimit : Lim
  exhausted : Bool
  errored : Bool

/-- The events observed while replaying the synchronous part of the legacy
scheduler. -/
inductive OEvent where
  | taskAdded (tid : Nat)
  | genCall (tid inv : Nat)
  | genRet (tid : Nat)
  deriving DecidableEq, Repr

/-- The legacy pool (`PromisePoolExecutor` of `index.ts`): concurrency limit,
active count, the ordered task list, an id counter, and the event log. -/
structure OPool where
  climit : Lim
  active : Nat
  tasks : List OTask
  nextId : Nat
  log : List OEvent

def natLtLim (a : Nat) : Lim → Bool
  | .fin n => decide (a < n)
  | .inf => true

def lookupTask (s : OPool) (tid : Nat) : Option OTask :=
  s.tasks.find? (fun t => t.tid == tid)

def setTask (s : OPool) (tid : Nat) (h : OTask → OTask) : OPool :=
  { s with tasks := s.tasks.map (fun t => if t.tid == tid then h t else t) }

def removeTask (s : OPool) (tid : Nat) : OPool :=
  { s with tasks := s.tasks.filter (fun t => t.tid != tid) }

/-- The synchronous entry points of the legacy pool that can call each other
re-entrantly. -/
inductive OJob where
  | addTask (genF : Nat → OGen) (cl il : Lim)
  | trigger (idx : Nat)
  | startP (tid : Nat)
  | runG (g : OGen)

/-- Fuelled interpreter of the synchronous fragment of `index.ts`:
`addGenericTask` (lines 380-417, pushing the task then calling
`triggerPromises`), `triggerPromises` (lines 221-232), `startPromise` (lines
138-175, including the re-entrant generator call) and the synchronous part of
`nextPromise` (lines 238-254).  Promise completion handlers and resolver
deliveries are asynchronous and outside this replay; the returned `ORet` is
only meaningful for `runG` jobs.  Exhausted fuel stops the replay, leaving
the state as is — the facts proved below only concern log prefixes produced
before any fuel runs out. -/
def oexec : Nat → OPool → OJob → OPool × ORet
  | 0, s, _ => (s, .nullR)
  | fuel + 1, s, job =>
    match job with
    | .addTask genF cl il =>
        if il.leZeroB then (s, .nullR)
        else
          let t : OTask := ⟨s.nextId, genF, 0, cl, 0, il, false, false⟩
          let s1 : OPool :=
            { s with
              tasks := s.tasks ++ [t]
            , nextId := s.nextId + 1
            , log := s.log ++ [.taskAdded s.nextId] }
          ((oexec fuel s1 (.trigger 0)).1, .nullR)
    | .trigger idx =>
        if natLtLim s.active s.climit && decide (idx < s.tasks.length) then
          match s.tasks.get? idx with
          | some t =>
              if !t.exhausted && natLtLim t.activeCount t.concurrencyLimit then
                ((oexec fuel (oexec fuel s (.startP t.tid)).1 (.trigger idx)).1, .nullR)
              else
                ((oexec fuel s (.trigger (idx + 1))).1, .nullR)
          | none => (s, .nullR)
        else (s, .nullR)
    | .startP tid =>
        match lookupTask s tid with
        | none => (s, .nullR)
        | some t =>
            let s1 : OPool := { s with log := s.log ++ [.genCall tid t.invocations] }
            let res := oexec fuel s1 (.runG (t.gen t.invocations))
            match res.2 with
            | .throwsR =>
                (setTask res.1 tid (fun u => { u with errored := true, exhausted := true }),
                  .nullR)
            | .nullR =>
                let s3 : OPool := { res.1 with log := res.1.log ++ [.genRet tid] }
                let s4 := setTask s3 tid (fun u => { u with exhausted := true })
                let s5 :=
                  match lookupTask s4 tid with
                  | some u =>
                      if u.exhausted && u.activeCount == 0 then removeTask s4 tid else s4
                  | none => s4
                ((oexec fuel s5 (.trigger 0)).1, .nullR)
            | .promiseR =>
                let s3 : OPool := { res.1 with log := res.1.log ++ [.genRet tid] }
                (setTask { s3 with active := s3.active + 1 } tid
                  (fun u =>
                    { u with
                      activeCount := u.activeCount + 1
                    , invocations := u.invocations + 1
                    , exhausted := u.exhausted ||
                        PromisePool.Lim.natGeB (u.invocations + 1) u.invocationLimit }),
                  .nullR)
    | .runG g =>
        match g with
        | .gret r => (s, r)
        | .addTaskThen genF cl il k =>
            oexec fuel (oexec fuel s (.addTask genF cl il)).1 (.runG k)

/-- The generator of the inner task of the recursion-prevention scenario: it
does nothing (returns the null sentinel at once). -/
def genInner : Nat → OGen := fun _ => .gret .nullR

/-- The generator of the outer task: it submits the inner task to the pool
(the shape of the repository test Generator Recursion Prevention) and then
returns the null sentinel. -/
def genOuter : Nat → OGen := fun _ => .addTaskThen genInner .inf .inf (.gret .nullR)

/-- An empty legacy pool with no concurrency limit. -/
def emptyOPool : OPool := { climit := .inf, active := 0, tasks := [], nextId := 0, log := [] }

/-- Replay of submitting the outer task to an empty pool. -/
def runRecursionScenario (fuel : Nat) : OPool :=
  (oexec fuel emptyOPool (.addTask genOuter .inf .inf)).1

end OldPool
namespace PromisePool

theorem noFreq_init (pp : GrpParams) : ∀ gid, NoFreqNoStarts ((init pp).groups gid) := by
  intro gid
  show NoFreqNoStarts (if gid = 0 then mkGrp pp else dfltGrp)
  split
  · exact mkGrp_noFreq pp
  · exact mkGrp_noFreq _

theorem invLimOk_init (pp : GrpParams) : InvLimOk (init pp) := by
  intro tid
  left
  rfl

theorem tasksND_init (pp : GrpParams) : TasksND (init pp) := by
  intro tid
  show (List.Nodup [])
  exact List.nodup_nil

theorem actBound_init (pp : GrpParams) : ActBound (init pp) := by
  intro gid
  show Lim.intLeB (if gid = 0 then mkGrp pp else dfltGrp).active
    (if gid = 0 then mkGrp pp else dfltGrp).climit = true
  split
  · exact intLeB_zero _
  · exact intLeB_zero _

theorem actMatch_init (pp : GrpParams) : ActMatch (init pp) := by
  intro gid
  show (if gid = 0 then mkGrp pp else dfltGrp).active = pendListSum [] gid
  split
  · rfl
  · rfl

theorem pendListSum_nonneg (l : List PendingInv) (gid : Nat) : 0 ≤ pendListSum l gid := by
  induction l with
  | nil => exact Int.le_refl 0
  | cons e l ih =>
      show (0 : Int) ≤ ((e.groupIds.count gid : Nat) : Int) + pendListSum l gid
      have h1 : (0 : Int) ≤ ((e.groupIds.count gid : Nat) : Int) := Int.ofNat_nonneg _
      omega

/-- The number of in-flight invocations belonging to a group, each invocation
counted once. -/
def inflightCount (s : PoolSt) (gid : Nat) : Nat :=
  (s.pending.filter (fun e => e.groupIds.contains gid)).length

/-- Pool options with no limits, as `new PromisePoolExecutor()`. -/
def gpNone : GrpParams := { climit := .inf, frequencyLimit := none, frequencyWindow := 0 }

/-- Group options with a concurrency limit of one. -/
def gpOne : GrpParams := { climit := .fin 1, frequencyLimit := none, frequencyWindow := 0 }

/-- The duplicate-group scenario: create a user group with concurrency limit
1, construct a task that lists that group twice in `params.groups` (the
constructor at `task.ts` lines 54-62 does not deduplicate), and start one
invocation. -/
def dupGroupOps : List Op :=
  [ .addGroup gpOne
  , .addTask gpNone .inf [1, 1] false
  , .run 0 .promiseRet ]

/-- Group options with a concurrency limit of two. -/
def gpTwo : GrpParams := { climit := .fin 2, frequencyLimit := none, frequencyWindow := 0 }

/-- A benign run used by the witnesses: one user group, one task in it with
invocation limit 2, one started invocation, one completion. -/
def witnessOps : List Op :=
  [ .addGroup gpOne
  , .addTask gpNone (.fin 2) [1] false
  , .run 0 .promiseRet
  , .complete 0 false
  , .run 0 .promiseRet ]

/-- The run of the C1 witness: like the benign run, but a runtime
concurrency-limit mutation raises the user group's limit (a safe mutation)
between the completion and the second start. -/
def c1WitnessOps : List Op :=
  [ .addGroup gpOne
  , .addTask gpNone (.fin 2) [1] false
  , .run 0 .promiseRet
  , .complete 0 false
  , .setConcurrencyLimit 1 (.fin 3)
  , .run 0 .promiseRet ]

/-- The limit-lowering scenario: a user group with concurrency limit two
carries two in-flight invocations when its limit is mutated down to one. -/
def lowerCLimitOps : List Op :=
  [ .addGroup gpTwo
  , .addTask gpNone .inf [1] false
  , .run 0 .promiseRet
  , .run 0 .promiseRet
  , .setConcurrencyLimit 1 (.fin 1) ]

end PromisePool
namespace PromisePool

/-- C1 (amended): in every state the scheduler machine can reach by a safe
run — no task lists the same user-created group more than once, and no
runtime concurrency-limit mutation sets a group's limit below its live active
count — every group's active promise count is at most its concurrency limit;
the scheduler only starts an invocation while all of the task's groups, the
pool's global group and the task's own group included, are strictly below
their limits.  Both exclusions are forced by the code: duplicated groups are
incremented twice per invocation, and a lowered limit leaves already-running
invocations counted above it. -/
theorem c1_no_group_exceeds_concurrency_limit (pp : GrpParams) (ops : List Op) (s : PoolSt)
    (hsafe : safeRunB (init pp) ops = true) (hrun : runOps (init pp) ops = some s) (gid : Nat) :
    Lim.intLeB (s.groups gid).active (s.groups gid).climit = true := by
  have hinv := runOps_inv_safe (fun st => GidB st ∧ TasksND st ∧ ActBound st)
    (fun st op s2 hq hP happ =>
      ⟨apply_pres_GidB st op s2 hP.1 happ,
        (apply_pres_C1core st op s2 hq hP.1 hP.2.1 hP.2.2 happ).1,
        (apply_pres_C1core st op s2 hq hP.1 hP.2.1 hP.2.2 happ).2⟩)
    ops (init pp) s hsafe ⟨gidB_init pp, tasksND_init pp, actBound_init pp⟩ hrun
  exact hinv.2.2 gid

set_option maxHeartbeats 2000000 in
/-- Witness for C1: a concrete safe run (one user group of limit one, one
task in it with invocation limit two, a start, a completion, a safe
limit-raising mutation, and another start) in which the theorem bounds the
user group's count. -/
theorem c1_no_group_exceeds_concurrency_limit_witness :
    Lim.intLeB (((runOps (init gpNone) c1WitnessOps).getD (init gpNone)).groups 1).active
      (((runOps (init gpNone) c1WitnessOps).getD (init gpNone)).groups 1).climit = true := by
  cases hrun : runOps (init gpNone) c1WitnessOps with
  | none =>
      have hsome : (runOps (init gpNone) c1WitnessOps).isSome = true := by decide
      rw [hrun] at hsome
      exact absurd hsome (by simp)
  | some s =>
      simp only [hrun, Option.getD_some]
      exact c1_no_group_exceeds_concurrency_limit gpNone c1WitnessOps s (by decide) hrun 1

set_option maxHeartbeats 2000000 in
/-- Mutating a concurrency limit below the live active count (`task.ts`
lines 110-112 delegate the setter to the group; spec §4.2/§6 make the limit
mutable at runtime, and §5 rules out cancelling in-flight work) leaves the
group's count above its limit, which is why the amended claim C1 excludes
such mutations: two in-flight invocations survive lowering the limit to
one. -/
theorem lowering_climit_below_active_breaks_bound :
    ((runOps (init gpNone) lowerCLimitOps).map
      (fun s => Lim.intLeB (s.groups 1).active (s.groups 1).climit)) = some false := by
  decide

set_option maxHeartbeats 2000000 in
/-- Counterexample to C1 as stated: passing the same user group twice in
`params.groups` makes `_run` increment that group's count twice per
invocation (`task.ts` lines 264-269 iterate the undeduplicated `_groups`),
so a group with concurrency limit one reaches an active count of two. -/
theorem c1_counterexample :
    ((runOps (init gpNone) dupGroupOps).map
      (fun s => Lim.intLeB (s.groups 1).active (s.groups 1).climit)) = some false := by
  decide

/-- C5 (amended): in every reachable state, each task either satisfies
`invocations ≤ invocation_limit` or has been ended (its state is at least
Exhausted).  Setting the mutable invocation limit below the invocation count
calls `end()` but leaves the recorded count above the new limit, so the bare
inequality of the original claim does not survive that mutation. -/
theorem c5_invocations_bounded_or_ended (pp : GrpParams) (ops : List Op) (s : PoolSt)
    (hrun : runOps (init pp) ops = some s) (tid : Nat) :
    Lim.natLeB (s.tasks tid).invocations (s.tasks tid).invocationLimit = true ∨
      2 ≤ ((s.tasks tid).state).rank :=
  runOps_inv InvLimOk apply_pres_InvLimOk ops (init pp) s (invLimOk_init pp) hrun tid

set_option maxHeartbeats 2000000 in
/-- Witness for C5 on the benign concrete run. -/
theorem c5_invocations_bounded_or_ended_witness :
    Lim.natLeB (((runOps (init gpNone) witnessOps).getD (init gpNone)).tasks 0).invocations
        (((runOps (init gpNone) witnessOps).getD (init gpNone)).tasks 0).invocationLimit = true ∨
      2 ≤ ((((runOps (init gpNone) witnessOps).getD (init gpNone)).tasks 0).state).rank := by
  cases hrun : runOps (init gpNone) witnessOps with
  | none =>
      have hsome : (runOps (init gpNone) witnessOps).isSome = true := by decide
      rw [hrun] at hsome
      exact absurd hsome (by simp)
  | some s =>
      simp only [hrun, Option.getD_some]
      exact c5_invocations_bounded_or_ended gpNone witnessOps s hrun 0

/-- The invocation-limit mutation scenario: a task with no invocation limit
runs twice, then its `invocationLimit` setter is given the value 1
(`task.ts` lines 90-104). -/
def lowerLimitOps : List Op :=
  [ .addTask gpNone .inf [] false
  , .run 0 .promiseRet
  , .run 0 .promiseRet
  , .setInvocationLimit 0 (.fin 1) ]

set_option maxHeartbeats 2000000 in
/-- Counterexample to C5 as stated: after two invocations, setting
`invocationLimit = 1` leaves `invocations = 2 > 1`; the setter only calls
`end()` and does not restore the inequality. -/
theorem c5_counterexample :
    ((runOps (init gpNone) lowerLimitOps).map
      (fun s => Lim.natLeB (s.tasks 0).invocations (s.tasks 0).invocationLimit)) = some false := by
  decide

/-- C9: in every reachable state, a group whose frequency limit is not set
has an empty `_frequencyStarts` list — `_run` (`task.ts` lines 264-269) only
pushes a timestamp when `group._frequencyLimit` is truthy, and purging only
removes entries. -/
theorem c9_no_timestamps_without_frequency_limit (pp : GrpParams) (ops : List Op) (s : PoolSt)
    (hrun : runOps (init pp) ops = some s) (gid : Nat)
    (hnone : (s.groups gid).frequencyLimit = none) :
    (s.groups gid).frequencyStarts = [] :=
  runOps_inv (fun st => ∀ g, NoFreqNoStarts (st.groups g)) apply_pres_noFreq
    ops (init pp) s (noFreq_init pp) hrun gid hnone

/-- A run exercising a frequency-limited task group next to the unlimited
global group: one start records a timestamp on the task group only. -/
def freqOps : List Op :=
  [ .addTask { climit := .inf, frequencyLimit := some 2, frequencyWindow := 5 } .inf [] false
  , .run 0 .promiseRet
  , .tick 3
  , .clean 0 ]

set_option maxHeartbeats 2000000 in
/-- Witness for C9: in the frequency run, the global group (which has no
frequency limit) records no timestamps, while the task's own group does. -/
theorem c9_no_timestamps_without_frequency_limit_witness :
    (((runOps (init gpNone) freqOps).getD (init gpNone)).groups 0).frequencyStarts = [] ∧
      (((runOps (init gpNone) freqOps).getD (init gpNone)).groups 1).frequencyStarts ≠ [] := by
  have hfl : (((runOps (init gpNone) freqOps).getD (init gpNone)).groups 0).frequencyLimit
      = none := by decide
  have hne : (((runOps (init gpNone) freqOps).getD (init gpNone)).groups 1).frequencyStarts
      ≠ [] := by decide
  cases hrun : runOps (init gpNone) freqOps with
  | none =>
      have hsome : (runOps (init gpNone) freqOps).isSome = true := by decide
      rw [hrun] at hsome
      exact absurd hsome (by simp)
  | some s =>
      simp only [hrun, Option.getD_some] at hfl hne ⊢
      exact ⟨c9_no_timestamps_without_frequency_limit gpNone freqOps s hrun 0 hfl, hne⟩

/-- C10 (amended): in every reachable state, every group's active promise
count equals the number of in-flight invocations charged to it counted with
the multiplicity of the group in the owning task's group list, and in
particular never becomes negative.  Each completion (resolution or
rejection alike) decrements the counter once per occurrence. -/
theorem c10_active_counts_match_inflight (pp : GrpParams) (ops : List Op) (s : PoolSt)
    (hrun : runOps (init pp) ops = some s) (gid : Nat) :
    (s.groups gid).active = pendListSum s.pending gid ∧ 0 ≤ (s.groups gid).active := by
  have hinv := runOps_inv (fun st => GidB st ∧ ActMatch st)
    (fun st op s2 hP happ =>
      ⟨apply_pres_GidB st op s2 hP.1 happ, apply_pres_ActMatch st op s2 hP.1 hP.2 happ⟩)
    ops (init pp) s ⟨gidB_init pp, actMatch_init pp⟩ hrun
  refine ⟨hinv.2 gid, ?_⟩
  rw [hinv.2 gid]
  exact pendListSum_nonneg s.pending gid

set_option maxHeartbeats 2000000 in
/-- Witness for C10 on the benign concrete run, at the user group. -/
theorem c10_active_counts_match_inflight_witness :
    (((runOps (init gpNone) witnessOps).getD (init gpNone)).groups 1).active
        = pendListSum ((runOps (init gpNone) witnessOps).getD (init gpNone)).pending 1 ∧
      0 ≤ (((runOps (init gpNone) witnessOps).getD (init gpNone)).groups 1).active := by
  cases hrun : runOps (init gpNone) witnessOps with
  | none =>
      have hsome : (runOps (init gpNone) witnessOps).isSome = true := by decide
      rw [hrun] at hsome
      exact absurd hsome (by simp)
  | some s =>
      simp only [hrun, Option.getD_some]
      exact c10_active_counts_match_inflight gpNone witnessOps s hrun 1

set_option maxHeartbeats 2000000 in
/-- Counterexample to C10 as stated: in the duplicate-group scenario the user
group's count is 2 although only one invocation of a task belonging to it is
in flight, so the count does not equal the number of in-flight
invocations. -/
theorem c10_counterexample :
    ((runOps (init gpNone) dupGroupOps).map
      (fun s => (s.groups 1).active == ((inflightCount s 1 : Nat) : Int))) = some false := by
  decide

end PromisePool
namespace TaskObs

/-- C2: for a task performing invocations 0..n-1 whose completion handlers run
in any order, the finalised result array has length n and holds at index i
exactly the value invocation i produced (`undefined` results are never
stored, and read back as `undefined`). -/
theorem c2_results_indexed_by_invocation {α : Type} (n : Nat) (v : Nat → Option α)
    (order : List Nat) (hnd : order.Nodup) (hbound : ∀ i ∈ order, i < n)
    (hall : ∀ i, i < n → i ∈ order) :
    (jsSetLength (runCompletions v order []) n).length = n ∧
    ∀ i, i < n → sget (jsSetLength (runCompletions v order []) n) i = v i := by
  have hub := hbound
  refine ⟨length_jsSetLength n _, ?_⟩
  intro i hi
  rw [sget_jsSetLength n _ i hi, sget_runCompletions v order [] i hnd]
  by_cases hsome : (v i).isSome
  · rw [if_pos ⟨hall i hi, hsome⟩]
  · rw [if_neg (fun hc => hsome hc.2), sget_nil]
    rcases hv : v i with _ | x
    · rfl
    · rw [hv] at hsome
      simp at hsome

/-- The value function of the C2 witness: invocation 1 yields `undefined`,
the others yield numbers. -/
def c2v : Nat → Option Nat := fun i => if i = 1 then none else some (10 * i)

/-- Witness for C2 at a concrete out-of-order completion: three invocations
completing in the order 2, 0, 1. -/
theorem c2_results_indexed_by_invocation_witness :
    (([2, 0, 1] : List Nat).Nodup ∧ (∀ i ∈ ([2, 0, 1] : List Nat), i < 3) ∧
      (∀ i, i < 3 → i ∈ ([2, 0, 1] : List Nat))) ∧
    ((jsSetLength (runCompletions c2v [2, 0, 1] []) 3).length = 3 ∧
      ∀ i, i < 3 → sget (jsSetLength (runCompletions c2v [2, 0, 1] []) 3) i = c2v i) :=
  ⟨⟨by decide, by decide, by decide⟩,
    c2_results_indexed_by_invocation 3 c2v [2, 0, 1] (by decide) (by decide) (by decide)⟩

/-- C4: a task's first failure becomes its recorded rejection; every further
failure of the same task leaves the recorded rejection unchanged and is only
appended to the unobserved-rejection channel (`task.ts` lines 332-339). -/
theorem c4_first_failure_recorded_rest_unobserved {α ε : Type} (t : TaskSt α ε) (e : ε)
    (errs : List ε) (h : t.rejection = none) :
    ((e :: errs).foldl rejectObs t).rejection.map TaskErr.error = some e ∧
    ((e :: errs).foldl rejectObs t).unobservedLog = t.unobservedLog ++ errs := by
  have hstep : (e :: errs).foldl rejectObs t = errs.foldl rejectObs (rejectObs t e) := rfl
  rcases rejectObs_first t e h with ⟨hdisj, huno⟩
  rcases hdisj with hrej | hrej
  · have hfold := rejectObs_fold_already errs (rejectObs t e) _ hrej
    rw [hstep, hfold.1, hfold.2, huno]
    exact ⟨rfl, rfl⟩
  · have hfold := rejectObs_fold_already errs (rejectObs t e) _ hrej
    rw [hstep, hfold.1, hfold.2, huno]
    exact ⟨rfl, rfl⟩

/-- Witness for C4: a fresh task fails three times; only the first error is
recorded, the other two land in the unobserved channel in order. -/
theorem c4_first_failure_recorded_rest_unobserved_witness :
    (ctor Nat Nat false none).rejection = none ∧
    ((((3 : Nat) :: [4, 5]).foldl rejectObs (ctor Nat Nat false none)).rejection.map
        TaskErr.error = some 3 ∧
      (((3 : Nat) :: [4, 5]).foldl rejectObs (ctor Nat Nat false none)).unobservedLog
        = (ctor Nat Nat false none).unobservedLog ++ [4, 5]) :=
  ⟨by decide, c4_first_failure_recorded_rest_unobserved (ctor Nat Nat false none) 3 [4, 5]
    (by decide)⟩

/-- C6: calling `promise()` on a task with a recorded rejection returns a
promise rejected with the recorded error, marks the rejection handled, and
thereby silences the deferred unhandled-rejection check (`task.ts` lines
148-152 and 361-370). -/
theorem c6_promise_marks_rejection_handled {α ε : Type} (t : TaskSt α ε) (te : TaskErr ε)
    (h : t.rejection = some te) :
    (promiseCall t).2 = .rejectedP te.error ∧
    (promiseCall t).1.rejection = some ⟨te.error, true⟩ ∧
    deferredCheck (promiseCall t).1 = none := by
  simp [promiseCall, h, deferredCheck]

/-- The rejected task of the C6 witness: a fresh task that failed once with
error 7 and has no waiters. -/
def c6Task : TaskSt Nat Nat := rejectObs (ctor Nat Nat false none) 7

/-- Witness for C6 at the concrete rejected task. -/
theorem c6_promise_marks_rejection_handled_witness :
    c6Task.rejection = some ⟨7, false⟩ ∧
    ((promiseCall c6Task).2 = .rejectedP 7 ∧
      (promiseCall c6Task).1.rejection = some ⟨7, true⟩ ∧
      deferredCheck (promiseCall c6Task).1 = none) :=
  ⟨by decide, c6_promise_marks_rejection_handled c6Task ⟨7, false⟩ (by decide)⟩

/-- C8: a task constructed with `invocationLimit = 0` ends in the
constructor (`task.ts` lines 66-69), so `promise()` immediately returns a
promise resolved with the empty result array. -/
theorem c8_zero_invocation_limit_resolves_empty (α ε : Type) (paused : Bool) :
    (promiseCall (ctor α ε paused (some 0))).2 = .resolvedP (some []) ∧
    (ctor α ε paused (some 0)).state = PromisePool.TState.terminated := by
  cases paused <;> exact ⟨rfl, rfl⟩

end TaskObs

namespace OldPool

/-- C7: `addBatchTask` rejects exactly the `batchSize` arguments that are
neither a function nor a positive number (`index.ts` lines 461-466); and when
`batchSize` is a callback, each invocation of the built generator that still
has data consults it with the number of remaining elements and the reported
free slots, failing the invocation exactly when the returned value is not a
positive number (`index.ts` lines 476-485). -/
theorem c7_batch_size_validation_and_consultation :
    (∀ bs : BatchSizeArg, batchSizeRejected bs = !(isFuncArg bs || isPosNumArg bs)) ∧
    (∀ (α : Type) (data : List α) (f : Nat → Nat → BatchRet) (fs idx inv : Nat),
      (batchGenStep data (.bsFunc f) fs idx inv).consulted =
        (if data.length ≤ idx then [] else [(data.length - idx, fs)]) ∧
      ((batchGenStep data (.bsFunc f) fs idx inv).out = BatchOut.rejectedOut ↔
        (¬ data.length ≤ idx ∧ batchRetInvalid (f (data.length - idx) fs) = true))) := by
  constructor
  · intro bs
    cases bs with
    | bsNum n =>
        cases n with
        | nan => rfl
        | num z =>
            by_cases hz : 0 < z
            · have hz2 : ¬ z ≤ 0 := by omega
              have hz3 : z ≠ 0 := by omega
              simp [batchSizeRejected, bsFalsy, jsNumTruthy, isFuncArg, isNumArg, numLeZero,
                isPosNumArg, hz, hz2, hz3]
            · have hz2 : z ≤ 0 := by omega
              simp [batchSizeRejected, bsFalsy, jsNumTruthy, isFuncArg, isNumArg, numLeZero,
                isPosNumArg, hz, hz2]
    | bsFunc f => rfl
    | bsOther t => cases t <;> rfl
  · intro α data f fs idx inv
    unfold batchGenStep
    by_cases hlen : data.length ≤ idx
    · simp [hlen]
    · simp only [if_neg hlen]
      by_cases hinv2 : batchRetInvalid (f (data.length - idx) fs) = true
      · simp [hinv2, hlen]
      · simp [hinv2, hlen]

set_option maxHeartbeats 2000000 in
/-- C3 fails on the legacy scheduler of `index.ts`: replaying the shape of
the repository test Generator Recursion Prevention (a generator that submits
a trivial task), the log opens with the outer generator being invoked a
second time — synchronously, inside its own first call (no `genRet 0`
precedes it) — immediately after the inner task is registered.
`addGenericTask` (line 415) calls `triggerPromises` synchronously, which
re-enters `startPromise` while the submitting generator is still on the
stack. -/
theorem c3_legacy_scheduler_reenters_generators :
    (runRecursionScenario 8).log.take 4 =
      [.taskAdded 0, .genCall 0 0, .taskAdded 1, .genCall 0 0] := by
  decide

end OldPool
